import Mathlib

/-
Verification development for the `site_exec` federated compute-orchestration
engine.  The Rust sources are shallowly embedded as executable Lean
definitions:

* identifiers and the per-site asset-id allocator (`src/main.rs`,
  `SiteIdManager`);
* the planner (`src/planning.rs`, `plan` / `site_for_compute` /
  `SymbolicStore` / `SymbolicProgress::take_feasible_compute`);
* the site execution engine (`src/site.rs`, `SiteInner::try_complete`,
  `actual_compute`, and the receive phase of `Site::execute`).

Rust `HashSet` / `HashMap` values are embedded as association lists with
first-match lookup; a `HashMap` never holds duplicate keys, so first-match
lookup agrees with map semantics.  Set iteration order (unspecified for
Rust's hasher) is determinized as list order, with `insert` appending, for
the claims that depend on it only through membership and emptiness; where
the order itself matters (the planner's routing-source selection), the
planner is additionally embedded with every iteration outcome an explicit,
validated choice-stream input (`planChoice`), so all orders are covered.
Machine integers are `Nat` with explicit `% 2 ^ 64` where overflow matters.
Panics (`expect`, `unwrap`) and fuel exhaustion are modelled as `none` of an
`Option`-valued result, and proved unreachable where the claims need it.
-/

namespace SiteExec

/-- A stable network-wide identifier for a site (`SiteId` in the source;
opaque here: only structural equality is used by the embedded code). -/
structure SiteId where
  idBits : Nat
deriving DecidableEq, Repr

/-- A 32-bit local asset index (`AssetIndex(u32)` in `src/main.rs`). -/
structure AssetIndex where
  val : Nat
deriving DecidableEq, Repr

/-- A globally unique asset handle: pair of originating site and local index
(`AssetId` in `src/main.rs`). -/
structure AssetId where
  site_id : SiteId
  asset_index : AssetIndex
deriving DecidableEq, Repr

/-- Opaque asset payload; the `src/site.rs` revision stores a single 64-bit
word (`AssetData { bits: u64 }`). -/
structure AssetData where
  bits : Nat
deriving DecidableEq, Repr

/-- A requested computation (`ComputeArgs`): ordered inputs, ordered outputs,
and the compute asset (the "program"). -/
structure ComputeArgs where
  inputs : List AssetId
  outputs : List AssetId
  compute_asset : AssetId
deriving DecidableEq, Repr

/-- Modelled from the spec: `ComputeArgs::needed_assets` lives in the crate
module that is not under `src/`; per the spec (§3) and the `src/main.rs`
compute branch, the needed assets are `inputs ∪ {compute_asset}`, iterated
as the inputs in order followed by the compute asset
(`inputs.iter().copied().chain(Some(*compute_asset))`). -/
def ComputeArgs.needed_assets (c : ComputeArgs) : List AssetId :=
  c.inputs ++ [c.compute_asset]

/-- A unit of work a site must perform (`Instruction` in the `src/site.rs`
revision, where the compute case carries a `ComputeArgs`). -/
inductive Instruction where
  | SendAssetTo (asset_id : AssetId) (site_id : SiteId)
  | AcquireAssetFrom (asset_id : AssetId) (site_id : SiteId)
  | ComputeAssetData (compute_args : ComputeArgs)
deriving DecidableEq, Repr

/-- The declarative input to the planner (`Problem`).  The Rust `HashSet`
fields are association lists here (see the header note). -/
structure Problem where
  may_access : List (SiteId × AssetId)
  may_compute : List (SiteId × AssetId)
  site_has_asset : List (SiteId × AssetId)
  do_compute : List ComputeArgs
deriving DecidableEq, Repr

/-- Planner diagnostics (`PlanError`); the Rust variants carry a borrow of
the offending `ComputeArgs`, embedded by value. -/
inductive PlanError where
  | CyclicCausality (compute_args : ComputeArgs)
  | NoSiteForCompute (compute_args : ComputeArgs)
deriving DecidableEq, Repr

/-- Wire message variants (`Msg` in the `src/site.rs` revision: the requester
is implicit in the envelope's sender). -/
inductive Msg where
  | AssetDataRequest (asset_id : AssetId)
  | AssetData (asset_id : AssetId) (asset_data : AssetData)
deriving DecidableEq, Repr

/-! ### Association-list map operations (Rust `HashMap` semantics) -/

/-- First-match association lookup (`HashMap::get`). -/
def mapLookup {β : Type} : List (AssetId × β) → AssetId → Option β
  | [], _ => none
  | (k, v) :: rest, a => if k = a then some v else mapLookup rest a

/-- Insert-or-overwrite (`HashMap::insert`): replace the first binding of the
key, else append. -/
def mapInsert {β : Type} : List (AssetId × β) → AssetId → β → List (AssetId × β)
  | [], a, v => [(a, v)]
  | (k, w) :: rest, a, v =>
    if k = a then (a, v) :: rest else (k, w) :: mapInsert rest a v

/-- Remove the first binding of a key (`HashMap::remove`). -/
def mapRemove {β : Type} : List (AssetId × β) → AssetId → List (AssetId × β)
  | [], _ => []
  | (k, w) :: rest, a => if k = a then rest else (k, w) :: mapRemove rest a

theorem mapLookup_mapInsert {β : Type} (m : List (AssetId × β)) (a : AssetId)
    (v : β) (x : AssetId) :
    mapLookup (mapInsert m a v) x = if a = x then some v else mapLookup m x := by
  induction m with
  | nil =>
    by_cases h : a = x <;> simp [mapInsert, mapLookup, h]
  | cons p rest ih =>
    obtain ⟨k, w⟩ := p
    by_cases hk : k = a
    · subst hk
      by_cases h : k = x <;> simp [mapInsert, mapLookup, h]
    · by_cases h : k = x
      · subst h
        have : ¬ a = k := fun hax => hk hax.symm
        simp [mapInsert, hk, mapLookup, this]
      · simp [mapInsert, hk, mapLookup, h, ih]

theorem mapLookup_mapRemove {β : Type} (m : List (AssetId × β)) (a : AssetId)
    (x : AssetId) (hx : x ≠ a) :
    mapLookup (mapRemove m a) x = mapLookup m x := by
  induction m with
  | nil => simp [mapRemove, mapLookup]
  | cons p rest ih =>
    obtain ⟨k, w⟩ := p
    by_cases hk : k = a
    · subst hk
      have : ¬ k = x := fun h => hx h.symm
      simp [mapRemove, mapLookup, this]
    · by_cases h : k = x <;> simp [mapRemove, hk, mapLookup, h, ih, hx]

theorem mapInsert_self {β : Type} (m : List (AssetId × β)) (a : AssetId) (v : β)
    (h : mapLookup m a = some v) : mapInsert m a v = m := by
  induction m with
  | nil => simp [mapLookup] at h
  | cons p rest ih =>
    obtain ⟨k, w⟩ := p
    by_cases hk : k = a
    · subst hk
      simp [mapLookup] at h
      simp [mapInsert, h]
    · simp [mapLookup, hk] at h
      simp [mapInsert, hk, ih h]

/-! ### The asset-id allocator (`SiteIdManager`, `src/main.rs`) -/

/-- Site-scoped allocator: a free-list of reclaimed indices plus a saturating
32-bit counter (`SiteIdManager`). -/
structure SiteIdManager where
  my_site_id : SiteId
  asset_index_list : List AssetIndex
  asset_index_seq_head : Option AssetIndex
deriving DecidableEq, Repr

/-- `SiteIdManager::new`. -/
def SiteIdManager.new (my_site_id : SiteId) : SiteIdManager :=
  { my_site_id := my_site_id
    asset_index_list := []
    asset_index_seq_head := some ⟨0⟩ }

/-- `SiteIdManager::alloc_asset_id`: pop the free-list (a `Vec`, so from the
back), else take the counter head and advance it by `checked_add(1)` on the
32-bit index (`None` on overflow). -/
def SiteIdManager.alloc_asset_id (m : SiteIdManager) :
    Option AssetId × SiteIdManager :=
  match m.asset_index_list.getLast? with
  | some i =>
    (some ⟨m.my_site_id, i⟩, { m with asset_index_list := m.asset_index_list.dropLast })
  | none =>
    match m.asset_index_seq_head with
    | none => (none, m)
    | some i =>
      let head' : Option AssetIndex :=
        if i.val + 1 < 2 ^ 32 then some ⟨i.val + 1⟩ else none
      (some ⟨m.my_site_id, i⟩, { m with asset_index_seq_head := head' })

/-- `SiteIdManager::try_free_asset_id`, exactly as written in `src/main.rs`:
when the id's originating site equals the allocator's own site it returns
`false` and changes nothing; otherwise it pushes the index onto the
free-list and returns `true`. -/
def SiteIdManager.try_free_asset_id (m : SiteIdManager) (asset_id : AssetId) :
    Bool × SiteIdManager :=
  if asset_id.site_id = m.my_site_id then
    (false, m)
  else
    (true, { m with asset_index_list := m.asset_index_list ++ [asset_id.asset_index] })

/-- State of the allocator after `n` successive `alloc_asset_id` calls. -/
def SiteIdManager.afterAllocs (m : SiteIdManager) : Nat → SiteIdManager
  | 0 => m
  | n + 1 => (SiteIdManager.afterAllocs m n).alloc_asset_id.2

/-- Result of the `n`-th (0-based) `alloc_asset_id` call in a run of
successive allocations. -/
def SiteIdManager.nthAlloc (m : SiteIdManager) (n : Nat) : Option AssetId :=
  (m.afterAllocs n).alloc_asset_id.1

theorem alloc_counter_state (s : SiteId) (i : AssetIndex) :
    (SiteIdManager.mk s [] (some i)).alloc_asset_id =
      (some ⟨s, i⟩,
        SiteIdManager.mk s []
          (if i.val + 1 < 2 ^ 32 then some ⟨i.val + 1⟩ else none)) := rfl

theorem alloc_exhausted_state (s : SiteId) :
    (SiteIdManager.mk s [] none).alloc_asset_id =
      (none, SiteIdManager.mk s [] none) := rfl

theorem afterAllocs_new (s : SiteId) (n : Nat) :
    (SiteIdManager.new s).afterAllocs n =
      SiteIdManager.mk s [] (if n < 2 ^ 32 then some ⟨n⟩ else none) := by
  induction n with
  | zero => simp [SiteIdManager.afterAllocs, SiteIdManager.new]
  | succ n ih =>
    rw [SiteIdManager.afterAllocs, ih]
    by_cases h : n < 2 ^ 32
    · rw [if_pos h, alloc_counter_state]
    · have h' : ¬ n + 1 < 2 ^ 32 := fun hc => h (Nat.lt_of_succ_lt hc)
      rw [if_neg h, alloc_exhausted_state, if_neg (by simpa using h')]

/-- C10: on a freshly constructed `SiteIdManager`, successive
`alloc_asset_id` calls (no intervening frees) return pairwise-distinct ids,
each with the manager's own site id and with asset indices 0, 1, 2, … in
order, and return `none` exactly from the 2³²-th call on, i.e. only after
2³² successful allocations have exhausted the 32-bit counter. -/
theorem c10_alloc_sequence (s : SiteId) (n m : Nat) :
    (n < 2 ^ 32 → (SiteIdManager.new s).nthAlloc n = some ⟨s, ⟨n⟩⟩) ∧
    (2 ^ 32 ≤ n → (SiteIdManager.new s).nthAlloc n = none) ∧
    (n < 2 ^ 32 → m < 2 ^ 32 → n ≠ m →
      (SiteIdManager.new s).nthAlloc n ≠ (SiteIdManager.new s).nthAlloc m) := by
  have key : ∀ k : Nat, (SiteIdManager.new s).nthAlloc k =
      if k < 2 ^ 32 then some ⟨s, ⟨k⟩⟩ else none := by
    intro k
    rw [SiteIdManager.nthAlloc, afterAllocs_new]
    by_cases hk : k < 2 ^ 32
    · rw [if_pos hk, if_pos hk, alloc_counter_state]
    · rw [if_neg hk, if_neg hk, alloc_exhausted_state]
  refine ⟨fun h => by rw [key, if_pos h], fun h => by rw [key, if_neg (Nat.not_lt.mpr h)], ?_⟩
  intro hn hm hnm
  rw [key, key, if_pos hn, if_pos hm]
  intro hc
  exact hnm (congrArg (fun o => ((o.getD ⟨s, ⟨0⟩⟩).asset_index).val) hc)

/-- Witness for C10 at a concrete input: the second allocation from a fresh
manager at site 0 yields the manager's own site id with index 1. -/
theorem c10_alloc_sequence_witness :
    (SiteIdManager.new ⟨0⟩).nthAlloc 1 = some ⟨⟨0⟩, ⟨1⟩⟩ :=
  (c10_alloc_sequence ⟨0⟩ 1 0).1 (by norm_num)

/-- C4 (evaluation at the failing input): `try_free_asset_id` as written
does the opposite of the claim.  Freeing an id minted by the allocator's own
site (site 0, index 5) returns `false` and leaves the free-list empty, while
freeing a foreign id (site 1, index 5) pushes the index onto the free-list
and returns `true`; consequently, after freeing the foreign id
`(site 1, index 0)`, two successive allocations both return the id
`(site 0, index 0)`, breaking global uniqueness of allocated ids. -/
theorem c4_try_free_asset_id_inverted :
    ((SiteIdManager.new ⟨0⟩).try_free_asset_id ⟨⟨0⟩, ⟨5⟩⟩ =
        (false, SiteIdManager.new ⟨0⟩)) ∧
    ((SiteIdManager.new ⟨0⟩).try_free_asset_id ⟨⟨1⟩, ⟨5⟩⟩ =
        (true, SiteIdManager.mk ⟨0⟩ [⟨5⟩] (some ⟨0⟩))) ∧
    (let m1 := ((SiteIdManager.new ⟨0⟩).try_free_asset_id ⟨⟨1⟩, ⟨0⟩⟩).2
     m1.alloc_asset_id.1 = some ⟨⟨0⟩, ⟨0⟩⟩ ∧
       m1.alloc_asset_id.2.alloc_asset_id.1 = some ⟨⟨0⟩, ⟨0⟩⟩) := by
  refine ⟨rfl, rfl, rfl, rfl⟩

/-! ### The computation function (`actual_compute`, `src/site.rs`) -/

/-- FNV-1a 64-bit prime. -/
def fnvPrime : Nat := 0x100000001b3

/-- FNV-1a 64-bit offset basis (`FnvHasher::default`). -/
def fnvOffsetBasis : Nat := 0xcbf29ce484222325

/-- One byte step of the FNV-1a hash, on 64 bits. -/
def fnvWriteByte (h b : Nat) : Nat := ((h ^^^ b) * fnvPrime) % 2 ^ 64

/-- `Hasher::write_u64`: feed the eight native-endianness (little-endian on
the reference x86-64 target) bytes of a 64-bit word to the hasher. -/
def fnvWriteU64 (h x : Nat) : Nat :=
  ((List.range 8).map (fun i => x / 256 ^ i % 256)).foldl fnvWriteByte h

/-- The chained output step of `actual_compute`: each output asset receives
the hasher's current value (`finish`), which is then fed back
(`write_u64`). -/
def computeOutputs : Nat → List AssetId → List (AssetId × AssetData)
  | _, [] => []
  | h, out :: rest => (out, ⟨h⟩) :: computeOutputs (fnvWriteU64 h h) rest

/-- `actual_compute` (`src/site.rs:48`): fold the FNV hash over the needed
assets' stored payloads (`None` as soon as one is missing via `store.get(…)?`),
then produce a chained deterministic value per output. -/
def actual_compute (store : List (AssetId × AssetData)) (compute_args : ComputeArgs) :
    Option (List (AssetId × AssetData)) :=
  (compute_args.needed_assets.foldlM
      (fun h needed_asset => (mapLookup store needed_asset).map
        (fun d => fnvWriteU64 h d.bits))
      fnvOffsetBasis).map
    (fun h => computeOutputs h compute_args.outputs)

/-! ### Per-site runtime state and `try_complete` (`src/site.rs`) -/

/-- The mutable per-site state the claims are about: the asset store, the
todo instruction list, and the retransmit rate-limit map (`SiteInner` plus
`Site::todo_instructions`; keypair/inbox/outboxes/logger are external
collaborators and carry no verifiable state). Timestamps are `Nat`
milliseconds. -/
structure SiteState where
  asset_store : List (AssetId × AssetData)
  todo_instructions : List Instruction
  last_requested_at : List (AssetId × Nat)
deriving DecidableEq, Repr

/-- `SiteInner::REQUEST_PERIOD` = 300 ms. -/
def REQUEST_PERIOD : Nat := 300

/-- Result of one `try_complete` call (`InsExecResult`). -/
inductive InsExecResult where
  | Incomplete
  | Complete (added_assets_to_store : Bool)
deriving DecidableEq, Repr

/-- `SiteInner::try_complete` (`src/site.rs:77`): attempt one instruction at
wall-clock time `now`; returns the exec result, the updated state and the
messages sent (destination, payload).  The `expect` abort on a failed
computation is the `none` result. -/
def try_complete (st : SiteState) (now : Nat) :
    Instruction → Option (InsExecResult × SiteState × List (SiteId × Msg))
  | .AcquireAssetFrom asset_id site_id =>
    if (mapLookup st.asset_store asset_id).isSome then
      some (.Complete false, st, [])
    else
      let recent_request :=
        match mapLookup st.last_requested_at asset_id with
        | some at_ => decide (now - at_ < REQUEST_PERIOD)
        | none => false
      if !recent_request then
        some (.Incomplete,
          { st with last_requested_at := mapInsert st.last_requested_at asset_id now },
          [(site_id, .AssetDataRequest asset_id)])
      else
        some (.Incomplete, st, [])
  | .SendAssetTo asset_id site_id =>
    match mapLookup st.asset_store asset_id with
    | some asset_data => some (.Complete false, st, [(site_id, .AssetData asset_id asset_data)])
    | none => some (.Incomplete, st, [])
  | .ComputeAssetData compute_args =>
    if compute_args.needed_assets.all
        (fun asset_id => (mapLookup st.asset_store asset_id).isSome) then
      match actual_compute st.asset_store compute_args with
      | some new_assets =>
        some (.Complete true,
          { st with asset_store :=
              new_assets.foldl (fun s p => mapInsert s p.1 p.2) st.asset_store },
          [])
      | none => none
    else
      some (.Incomplete, st, [])

/-- `Vec::swap_remove(i)`: replace element `i` with the last element and pop
the last (used by the progress phase of `Site::execute`). -/
def swapRemove {α : Type} (l : List α) (i : Nat) : List α :=
  match l.getLast? with
  | none => l
  | some last => (l.set i last).dropLast

/-- The receive-phase message handler of `Site::execute` (`src/site.rs:183`),
for a message whose signature already verified: a request is answered from
the store or queued as a `SendAssetTo`, and received data evicts the
rate-limit entry and is inserted (insert-or-overwrite) into the store. -/
def handleMsg (st : SiteState) (sender : SiteId) :
    Msg → SiteState × List (SiteId × Msg)
  | .AssetDataRequest asset_id =>
    match mapLookup st.asset_store asset_id with
    | some asset_data => (st, [(sender, .AssetData asset_id asset_data)])
    | none =>
      ({ st with todo_instructions :=
          st.todo_instructions ++ [.SendAssetTo asset_id sender] }, [])
  | .AssetData asset_id asset_data =>
    ({ st with
        last_requested_at := mapRemove st.last_requested_at asset_id,
        asset_store := mapInsert st.asset_store asset_id asset_data }, [])

/-- Scheduler events driving one site.  `prog now idx` is one progress-phase
`try_complete` attempt on todo entry `idx` at time `now` (completed entries
are removed by `swap_remove`); `recv now valid sender msg` is the receipt of
a signed message whose signature verification outcome is `valid` (the
signature scheme itself is an external collaborator; the handler only
branches on the outcome, `src/site.rs:178`). -/
inductive Event where
  | prog (now : Nat) (idx : Nat)
  | recv (now : Nat) (valid : Bool) (sender : SiteId) (msg : Msg)
deriving DecidableEq, Repr

/-- The time an event occurs at. -/
def Event.time : Event → Nat
  | .prog now _ => now
  | .recv now _ _ _ => now

/-- One engine step: a `prog` event runs `try_complete` on the indexed todo
entry (out-of-range indices are a scheduler no-op) and removes it on
completion; an invalid `recv` is logged and dropped with no other state
change; a valid `recv` is handled by `handleMsg`.  `none` is the engine
abort (failed computation `expect`). -/
def step (st : SiteState) : Event → Option (SiteState × List (SiteId × Msg))
  | .prog now idx =>
    match st.todo_instructions.get? idx with
    | none => some (st, [])
    | some ins =>
      (try_complete st now ins).map (fun r =>
        match r with
        | (.Incomplete, st', outs) => (st', outs)
        | (.Complete _, st', outs) =>
          ({ st' with todo_instructions := swapRemove st'.todo_instructions idx }, outs))
  | .recv _ valid sender msg =>
    if valid then some (handleMsg st sender msg) else some (st, [])

/-- Run a site over a list of scheduler events, collecting every outbound
message tagged with the time of the event that emitted it. -/
def run (st : SiteState) : List Event → Option (SiteState × List (Nat × SiteId × Msg))
  | [] => some (st, [])
  | e :: es =>
    match step st e with
    | none => none
    | some (st', outs) =>
      (run st' es).map (fun r =>
        (r.1, outs.map (fun o => (e.time, o.1, o.2)) ++ r.2))

theorem foldlM_fnv_isSome (store : List (AssetId × AssetData)) :
    ∀ (l : List AssetId) (h : Nat),
      (∀ a ∈ l, (mapLookup store a).isSome) →
      (l.foldlM
        (fun h needed_asset => (mapLookup store needed_asset).map
          (fun d => fnvWriteU64 h d.bits)) h).isSome := by
  intro l
  induction l with
  | nil => intro h _; simp [List.foldlM]
  | cons a rest ih =>
    intro h hall
    have ha : (mapLookup store a).isSome := hall a (List.mem_cons_self a rest)
    obtain ⟨d, hd⟩ := Option.isSome_iff_exists.mp ha
    simp only [List.foldlM, hd, Option.map_some']
    exact ih (fnvWriteU64 h d.bits) (fun b hb => hall b (List.mem_cons_of_mem a hb))

/-- C8: the compute step is only invoked with its precondition satisfied.
Whenever the computation branch's guard holds (every needed asset — inputs
and the compute asset — is present in the asset store), `actual_compute`
returns `some`; hence `try_complete` never hits the `expect` abort path on
any instruction, at any state and time. -/
theorem c8_compute_precondition (st : SiteState) (now : Nat) (c : ComputeArgs) :
    (c.needed_assets.all
        (fun asset_id => (mapLookup st.asset_store asset_id).isSome) = true →
      (actual_compute st.asset_store c).isSome) ∧
    (∀ ins : Instruction, (try_complete st now ins).isSome) := by
  have key : ∀ c' : ComputeArgs,
      c'.needed_assets.all
          (fun asset_id => (mapLookup st.asset_store asset_id).isSome) = true →
      (actual_compute st.asset_store c').isSome := by
    intro c' hall
    rw [actual_compute, Option.isSome_map']
    exact foldlM_fnv_isSome st.asset_store c'.needed_assets fnvOffsetBasis
      (fun a ha => List.all_eq_true.mp hall a ha)
  refine ⟨key c, ?_⟩
  intro ins
  match ins with
  | .AcquireAssetFrom asset_id site_id =>
    rw [try_complete]
    by_cases hs : (mapLookup st.asset_store asset_id).isSome
    · simp [hs]
    · simp only [hs, if_false, Bool.false_eq_true]
      by_cases hr : (match mapLookup st.last_requested_at asset_id with
        | some at_ => decide (now - at_ < REQUEST_PERIOD)
        | none => false) = true
      · simp [hr]
      · simp [hr]
  | .SendAssetTo asset_id site_id =>
    rw [try_complete]
    match mapLookup st.asset_store asset_id with
    | some d => simp
    | none => simp
  | .ComputeAssetData c' =>
    rw [try_complete]
    by_cases hall : c'.needed_assets.all
        (fun asset_id => (mapLookup st.asset_store asset_id).isSome) = true
    · have := key c' hall
      obtain ⟨new_assets, hna⟩ := Option.isSome_iff_exists.mp this
      simp [hall, hna]
    · simp [hall]

/-- Witness for C8 at a concrete input: a store holding assets `(0,0)` (an
input) and `(0,1)` (the compute asset) satisfies the guard of the
computation `(inputs := [(0,0)], outputs := [(0,2)])`, so `actual_compute`
succeeds on it. -/
theorem c8_compute_precondition_witness :
    (actual_compute [(⟨⟨0⟩, ⟨0⟩⟩, ⟨7⟩), (⟨⟨0⟩, ⟨1⟩⟩, ⟨9⟩)]
      ⟨[⟨⟨0⟩, ⟨0⟩⟩], [⟨⟨0⟩, ⟨2⟩⟩], ⟨⟨0⟩, ⟨1⟩⟩⟩).isSome :=
  (c8_compute_precondition
      ⟨[(⟨⟨0⟩, ⟨0⟩⟩, ⟨7⟩), (⟨⟨0⟩, ⟨1⟩⟩, ⟨9⟩)], [], []⟩ 0
      ⟨[⟨⟨0⟩, ⟨0⟩⟩], [⟨⟨0⟩, ⟨2⟩⟩], ⟨⟨0⟩, ⟨1⟩⟩⟩).1 (by decide)

/-! ### Rate limiting of retransmitted requests (C5) -/

/-- Asset ids of the `AssetDataRequest` messages among a step's outputs. -/
def reqIds (outs : List (SiteId × Msg)) : List AssetId :=
  outs.filterMap (fun o => match o.2 with
    | .AssetDataRequest a => some a
    | _ => none)

/-- Timestamped `AssetDataRequest` emissions of a run. -/
def requestsOf (l : List (Nat × SiteId × Msg)) : List (Nat × AssetId) :=
  l.filterMap (fun p => match p.2.2 with
    | .AssetDataRequest a => some (p.1, a)
    | _ => none)

theorem requestsOf_append (l₁ l₂ : List (Nat × SiteId × Msg)) :
    requestsOf (l₁ ++ l₂) = requestsOf l₁ ++ requestsOf l₂ :=
  List.filterMap_append _ _ _

theorem requestsOf_map_tag (t : Nat) (outs : List (SiteId × Msg)) :
    requestsOf (outs.map (fun o => (t, o.1, o.2))) =
      (reqIds outs).map (fun a => (t, a)) := by
  induction outs with
  | nil => rfl
  | cons o rest ih =>
    obtain ⟨dest, m⟩ := o
    match m with
    | .AssetDataRequest a => simp [requestsOf, reqIds, List.filterMap_cons] at ih ⊢; exact ih
    | .AssetData a d => simp [requestsOf, reqIds, List.filterMap_cons] at ih ⊢; exact ih

theorem lookup_foldl_mapInsert_isSome (l : List (AssetId × AssetData))
    (m : List (AssetId × AssetData)) (a : AssetId)
    (h : (mapLookup m a).isSome) :
    (mapLookup (l.foldl (fun s p => mapInsert s p.1 p.2) m) a).isSome := by
  induction l generalizing m with
  | nil => exact h
  | cons p rest ih =>
    refine ih (mapInsert m p.1 p.2) ?_
    rw [mapLookup_mapInsert]
    by_cases hpa : p.1 = a
    · simp [hpa]
    · simp [hpa, h]

/-- All the facts about one engine step needed for the rate-limit invariant:
the store only grows; at most one `AssetDataRequest` is emitted, and when it
is, the requested asset is absent from the store, the rate-limit map records
the event's time for it (and any previous record was at least
`REQUEST_PERIOD` older); the rate-limit entry of every other asset is
unchanged unless that asset is (now) in the store. -/
theorem step_rate_facts (st : SiteState) (e : Event) (st' : SiteState)
    (outs : List (SiteId × Msg)) (h : step st e = some (st', outs)) :
    (∀ a, (mapLookup st.asset_store a).isSome →
        (mapLookup st'.asset_store a).isSome) ∧
    ((reqIds outs = [] ∧
        (∀ a, mapLookup st'.last_requested_at a = mapLookup st.last_requested_at a ∨
          (mapLookup st'.asset_store a).isSome)) ∨
      (∃ a₀, reqIds outs = [a₀] ∧
        mapLookup st'.asset_store a₀ = none ∧
        mapLookup st'.last_requested_at a₀ = some e.time ∧
        (∀ tl, mapLookup st.last_requested_at a₀ = some tl →
          tl + REQUEST_PERIOD ≤ e.time) ∧
        (∀ a, a ≠ a₀ →
          mapLookup st'.last_requested_at a = mapLookup st.last_requested_at a))) := by
  match e with
  | .recv now valid sender msg =>
    simp only [step] at h
    by_cases hv : valid = true
    · rw [if_pos hv] at h
      match msg with
      | .AssetDataRequest asset_id =>
        simp only [handleMsg] at h
        cases hl : mapLookup st.asset_store asset_id with
        | some d =>
          rw [hl] at h
          injection h with h'
          obtain ⟨h1, h2⟩ := Prod.ext_iff.mp h'
          subst h1; subst h2
          exact ⟨fun a ha => ha, Or.inl ⟨rfl, fun a => Or.inl rfl⟩⟩
        | none =>
          rw [hl] at h
          injection h with h'
          obtain ⟨h1, h2⟩ := Prod.ext_iff.mp h'
          subst h1; subst h2
          exact ⟨fun a ha => ha, Or.inl ⟨rfl, fun a => Or.inl rfl⟩⟩
      | .AssetData asset_id asset_data =>
        simp only [handleMsg] at h
        injection h with h'
        obtain ⟨h1, h2⟩ := Prod.ext_iff.mp h'
        subst h1; subst h2
        constructor
        · intro a ha
          rw [mapLookup_mapInsert]
          by_cases hx : asset_id = a
          · simp [hx]
          · simp [hx, ha]
        · refine Or.inl ⟨rfl, fun a => ?_⟩
          by_cases hx : a = asset_id
          · subst hx
            refine Or.inr ?_
            rw [mapLookup_mapInsert]
            simp
          · exact Or.inl (mapLookup_mapRemove _ _ _ hx)
    · rw [if_neg hv] at h
      injection h with h'
      obtain ⟨h1, h2⟩ := Prod.ext_iff.mp h'
      subst h1; subst h2
      exact ⟨fun a ha => ha, Or.inl ⟨rfl, fun a => Or.inl rfl⟩⟩
  | .prog now idx =>
    cases hget : st.todo_instructions.get? idx with
    | none =>
      simp only [step, hget] at h
      injection h with h'
      obtain ⟨h1, h2⟩ := Prod.ext_iff.mp h'
      subst h1; subst h2
      exact ⟨fun a ha => ha, Or.inl ⟨rfl, fun a => Or.inl rfl⟩⟩
    | some ins =>
      simp only [step, hget] at h
      cases htc : try_complete st now ins with
      | none => rw [htc] at h; exact absurd h (by simp)
      | some r =>
        rw [htc] at h
        obtain ⟨res, st₁, outs₁⟩ := r
        have hstore : st'.asset_store = st₁.asset_store ∧
            st'.last_requested_at = st₁.last_requested_at ∧ outs = outs₁ := by
          match res with
          | .Incomplete =>
            simp only [Option.map_some'] at h
            injection h with h'
            simp only [Prod.mk.injEq] at h'
            obtain ⟨h1, h2⟩ := h'
            subst h1; subst h2
            exact ⟨rfl, rfl, rfl⟩
          | .Complete b =>
            simp only [Option.map_some'] at h
            injection h with h'
            simp only [Prod.mk.injEq] at h'
            obtain ⟨h1, h2⟩ := h'
            subst h1; subst h2
            exact ⟨rfl, rfl, rfl⟩
        obtain ⟨hs1, hs2, hs3⟩ := hstore
        subst hs3
        rw [hs1, hs2]
        clear hs1 hs2 h hget
        -- now prove the facts for `try_complete` itself
        match ins with
        | .AcquireAssetFrom asset_id site_id =>
          simp only [try_complete] at htc
          by_cases hin : (mapLookup st.asset_store asset_id).isSome
          · rw [if_pos hin] at htc
            injection htc with h'
            simp only [Prod.mk.injEq] at h'
            obtain ⟨hr1, hr2, hr3⟩ := h'
            subst hr2; subst hr3
            exact ⟨fun a ha => ha, Or.inl ⟨rfl, fun a => Or.inl rfl⟩⟩
          · rw [if_neg hin] at htc
            by_cases hrec : (match mapLookup st.last_requested_at asset_id with
              | some at_ => decide (now - at_ < REQUEST_PERIOD)
              | none => false) = true
            · rw [hrec] at htc
              simp only [Bool.not_true, if_neg (by simp : ¬ (false = true))] at htc
              injection htc with h'
              simp only [Prod.mk.injEq] at h'
              obtain ⟨hr1, hr2, hr3⟩ := h'
              subst hr2; subst hr3
              exact ⟨fun a ha => ha, Or.inl ⟨rfl, fun a => Or.inl rfl⟩⟩
            · rw [Bool.not_eq_true] at hrec
              rw [hrec] at htc
              simp only [Bool.not_false, if_pos rfl] at htc
              injection htc with h'
              simp only [Prod.mk.injEq] at h'
              obtain ⟨hr1, hr2, hr3⟩ := h'
              subst hr2; subst hr3
              have hnone : mapLookup st.asset_store asset_id = none :=
                Option.not_isSome_iff_eq_none.mp hin
              refine ⟨fun a ha => ha, Or.inr ⟨asset_id, rfl, hnone, ?_, ?_, ?_⟩⟩
              · rw [mapLookup_mapInsert]; simp [Event.time]
              · intro tl htl
                rw [htl] at hrec
                have hn : ¬ (now - tl < REQUEST_PERIOD) := of_decide_eq_false hrec
                simp only [Event.time]
                simp only [REQUEST_PERIOD] at hn ⊢
                omega
              · intro a hne
                rw [mapLookup_mapInsert, if_neg (fun hc => hne hc.symm)]
        | .SendAssetTo asset_id site_id =>
          simp only [try_complete] at htc
          cases hl : mapLookup st.asset_store asset_id with
          | some d =>
            rw [hl] at htc
            injection htc with h'
            simp only [Prod.mk.injEq] at h'
            obtain ⟨hr1, hr2, hr3⟩ := h'
            subst hr2; subst hr3
            exact ⟨fun a ha => ha, Or.inl ⟨rfl, fun a => Or.inl rfl⟩⟩
          | none =>
            rw [hl] at htc
            injection htc with h'
            simp only [Prod.mk.injEq] at h'
            obtain ⟨hr1, hr2, hr3⟩ := h'
            subst hr2; subst hr3
            exact ⟨fun a ha => ha, Or.inl ⟨rfl, fun a => Or.inl rfl⟩⟩
        | .ComputeAssetData compute_args =>
          simp only [try_complete] at htc
          by_cases hall : compute_args.needed_assets.all
              (fun asset_id => (mapLookup st.asset_store asset_id).isSome) = true
          · rw [if_pos hall] at htc
            cases hac : actual_compute st.asset_store compute_args with
            | none => rw [hac] at htc; exact absurd htc (by simp)
            | some new_assets =>
              rw [hac] at htc
              injection htc with h'
              simp only [Prod.mk.injEq] at h'
              obtain ⟨hr1, hr2, hr3⟩ := h'
              subst hr2; subst hr3
              refine ⟨fun a ha => lookup_foldl_mapInsert_isSome _ _ _ ha,
                Or.inl ⟨rfl, fun a => Or.inl rfl⟩⟩
          · rw [if_neg hall] at htc
            injection htc with h'
            simp only [Prod.mk.injEq] at h'
            obtain ⟨hr1, hr2, hr3⟩ := h'
            subst hr2; subst hr3
            exact ⟨fun a ha => ha, Or.inl ⟨rfl, fun a => Or.inl rfl⟩⟩

/-- The rate-limit trace invariant: along any run, the emitted
`AssetDataRequest` timestamps for one asset are pairwise separated by at
least `REQUEST_PERIOD`, and any future emission for an asset implies the
asset is currently absent from the store and any current rate-limit record
for it is at least `REQUEST_PERIOD` older. -/
theorem run_rate_invariant : ∀ (es : List Event) (st sf : SiteState)
    (outs : List (Nat × SiteId × Msg)), run st es = some (sf, outs) →
    (requestsOf outs).Pairwise
      (fun p q => p.2 = q.2 → p.1 + REQUEST_PERIOD ≤ q.1) ∧
    (∀ t a, (t, a) ∈ requestsOf outs →
      mapLookup st.asset_store a = none ∧
      (∀ tl, mapLookup st.last_requested_at a = some tl →
        tl + REQUEST_PERIOD ≤ t)) := by
  intro es
  induction es with
  | nil =>
    intro st sf outs h
    simp only [run] at h
    injection h with h'
    simp only [Prod.mk.injEq] at h'
    obtain ⟨h1, h2⟩ := h'
    subst h1; subst h2
    exact ⟨List.Pairwise.nil, fun t a hm => absurd hm (by simp [requestsOf])⟩
  | cons e rest ih =>
    intro st sf outs h
    cases hstep : step st e with
    | none => rw [run, hstep] at h; exact absurd h (by simp)
    | some pr =>
      obtain ⟨st₁, outs₀⟩ := pr
      cases hrun : run st₁ rest with
      | none => simp [run, hstep, hrun] at h
      | some pr₂ =>
        obtain ⟨sf₂, outs₂⟩ := pr₂
        simp only [run, hstep, hrun, Option.map_some'] at h
        injection h with h'
        simp only [Prod.mk.injEq] at h'
        obtain ⟨h1, h2⟩ := h'
        subst h1; subst h2
        obtain ⟨hmono, hreq⟩ := step_rate_facts st e st₁ outs₀ hstep
        obtain ⟨ihpw, ihcond⟩ := ih st₁ sf₂ outs₂ hrun
        rw [requestsOf_append, requestsOf_map_tag]
        have store_transfer : ∀ a, mapLookup st₁.asset_store a = none →
            mapLookup st.asset_store a = none := by
          intro a h₁
          cases hx : mapLookup st.asset_store a with
          | none => rfl
          | some d =>
            have := hmono a (by rw [hx]; rfl)
            rw [h₁] at this
            exact absurd this (by simp)
        cases hreq with
        | inl hz =>
          obtain ⟨hz1, hz2⟩ := hz
          rw [hz1]
          simp only [List.map_nil, List.nil_append]
          refine ⟨ihpw, ?_⟩
          intro t a hmem
          obtain ⟨hst1, hlr1⟩ := ihcond t a hmem
          refine ⟨store_transfer a hst1, ?_⟩
          intro tl htl
          cases hz2 a with
          | inl heq => exact hlr1 tl (heq.trans htl)
          | inr hsome =>
            rw [hst1] at hsome
            exact absurd hsome (by simp)
        | inr he =>
          obtain ⟨a₀, h0, h1s, h2s, h3s, h4s⟩ := he
          rw [h0]
          simp only [List.map_cons, List.map_nil, List.singleton_append]
          constructor
          · refine List.Pairwise.cons ?_ ihpw
            intro q hq hpq
            obtain ⟨t₂, a₂⟩ := q
            simp only at hpq
            obtain ⟨_, hlr₂⟩ := ihcond t₂ a₂ hq
            exact hlr₂ e.time (by rw [← hpq]; exact h2s)
          · intro t a hmem
            rcases List.mem_cons.mp hmem with hhd | htail
            · simp only [Prod.mk.injEq] at hhd
              obtain ⟨hh1, hh2⟩ := hhd
              subst hh1; subst hh2
              exact ⟨store_transfer _ h1s, h3s⟩
            · obtain ⟨hst1, hlr1⟩ := ihcond t a htail
              refine ⟨store_transfer a hst1, ?_⟩
              intro tl htl
              by_cases ha0 : a = a₀
              · subst ha0
                have h1 : e.time + REQUEST_PERIOD ≤ t := hlr1 e.time h2s
                have h2' : tl + REQUEST_PERIOD ≤ e.time := h3s tl htl
                omega
              · exact hlr1 tl ((h4s a ha0).trans htl)

/-- C5: at any site and along any scheduled execution of the engine's step
relation, any two outbound `AssetDataRequest` emissions for the same asset
are separated by at least `REQUEST_PERIOD` (300 ms): `try_complete` on an
`AcquireAssetFrom` for an asset absent from the store sends a request and
records the time only when no request for that asset was recorded within the
last `REQUEST_PERIOD`, and otherwise sends nothing. -/
theorem c5_request_rate_limit (st sf : SiteState) (es : List Event)
    (outs : List (Nat × SiteId × Msg)) (h : run st es = some (sf, outs)) :
    (requestsOf outs).Pairwise
      (fun p q => p.2 = q.2 → p.1 + REQUEST_PERIOD ≤ q.1) :=
  (run_rate_invariant es st sf outs h).1

/-- Witness for C5 at a concrete input: a site with one pending acquire and
an unresponsive peer, scheduled at times 0, 100 and 400, emits requests at
times 0 and 400 only (the attempt at 100 is suppressed), and those are
`REQUEST_PERIOD`-separated. -/
theorem c5_request_rate_limit_witness :
    (requestsOf
        [(0, ⟨1⟩, .AssetDataRequest ⟨⟨0⟩, ⟨0⟩⟩),
          (400, ⟨1⟩, .AssetDataRequest ⟨⟨0⟩, ⟨0⟩⟩)]).Pairwise
      (fun p q => p.2 = q.2 → p.1 + REQUEST_PERIOD ≤ q.1) :=
  c5_request_rate_limit
    ⟨[], [.AcquireAssetFrom ⟨⟨0⟩, ⟨0⟩⟩ ⟨1⟩], []⟩
    ⟨[], [.AcquireAssetFrom ⟨⟨0⟩, ⟨0⟩⟩ ⟨1⟩], [(⟨⟨0⟩, ⟨0⟩⟩, 400)]⟩
    [.prog 0 0, .prog 100 0, .prog 400 0]
    [(0, ⟨1⟩, .AssetDataRequest ⟨⟨0⟩, ⟨0⟩⟩),
      (400, ⟨1⟩, .AssetDataRequest ⟨⟨0⟩, ⟨0⟩⟩)]
    (by decide)

/-- C6: a received message whose signature fails verification is dropped
with no state change at all — the asset store, the todo list (so any pending
`AcquireAssetFrom` stays pending) and the rate-limit map are untouched, no
reply is sent, and the step is not an abort (the receive loop continues). -/
theorem c6_invalid_signature_no_state_change (st : SiteState) (now : Nat)
    (sender : SiteId) (msg : Msg) :
    step st (.recv now false sender msg) = some (st, []) ∧
    (∀ a s, Instruction.AcquireAssetFrom a s ∈ st.todo_instructions →
      Instruction.AcquireAssetFrom a s ∈
        ((step st (.recv now false sender msg)).getD (st, [])).1.todo_instructions) := by
  exact ⟨rfl, fun a s h => h⟩

/-! ### Observational equivalence and idempotent delivery (C7) -/

/-- Observational equivalence of site states: equal stores and todo lists,
and equal rate-limit records for every asset absent from the store (the
record of a stored asset is never read again: `try_complete` checks the
store first, and it is evicted on delivery). -/
def obsEquiv (s₁ s₂ : SiteState) : Prop :=
  s₁.asset_store = s₂.asset_store ∧
  s₁.todo_instructions = s₂.todo_instructions ∧
  ∀ a, mapLookup s₁.asset_store a = none →
    mapLookup s₁.last_requested_at a = mapLookup s₂.last_requested_at a

/-- Observationally equivalent states are bisimilar: on any event they abort
together, or step to the same outputs and observationally equivalent
states. -/
theorem step_bisim (s₁ s₂ : SiteState) (e : Event) (h : obsEquiv s₁ s₂) :
    (step s₁ e = none ∧ step s₂ e = none) ∨
    ∃ s₁' s₂' outs, step s₁ e = some (s₁', outs) ∧ step s₂ e = some (s₂', outs) ∧
      obsEquiv s₁' s₂' := by
  obtain ⟨hstore, htodo, hlr⟩ := h
  match e with
  | .recv now valid sender msg =>
    by_cases hv : valid = true
    case neg =>
      refine Or.inr ⟨s₁, s₂, [], ?_, ?_, hstore, htodo, hlr⟩ <;> simp [step, hv]
    case pos =>
      subst hv
      match msg with
      | .AssetDataRequest asset_id =>
        cases hl : mapLookup s₁.asset_store asset_id with
        | some d =>
          have hl₂ : mapLookup s₂.asset_store asset_id = some d := by
            rw [← hstore]; exact hl
          refine Or.inr ⟨s₁, s₂, [(sender, .AssetData asset_id d)], ?_, ?_,
            hstore, htodo, hlr⟩
          · simp [step, handleMsg, hl]
          · simp [step, handleMsg, hl₂]
        | none =>
          have hl₂ : mapLookup s₂.asset_store asset_id = none := by
            rw [← hstore]; exact hl
          refine Or.inr
            ⟨⟨s₁.asset_store, s₁.todo_instructions ++ [.SendAssetTo asset_id sender],
                s₁.last_requested_at⟩,
              ⟨s₂.asset_store, s₂.todo_instructions ++ [.SendAssetTo asset_id sender],
                s₂.last_requested_at⟩, [], ?_, ?_, ?_⟩
          · simp [step, handleMsg, hl]
          · simp [step, handleMsg, hl₂]
          · exact ⟨hstore, by simp only [htodo], fun b hb => hlr b hb⟩
      | .AssetData asset_id asset_data =>
        refine Or.inr
          ⟨⟨mapInsert s₁.asset_store asset_id asset_data, s₁.todo_instructions,
              mapRemove s₁.last_requested_at asset_id⟩,
            ⟨mapInsert s₂.asset_store asset_id asset_data, s₂.todo_instructions,
              mapRemove s₂.last_requested_at asset_id⟩, [], ?_, ?_, ?_⟩
        · simp [step, handleMsg]
        · simp [step, handleMsg]
        · refine ⟨by rw [hstore], htodo, ?_⟩
          intro b hb
          have hbne : b ≠ asset_id := by
            intro hbe
            subst hbe
            rw [mapLookup_mapInsert] at hb
            simp at hb
          have hb' : mapLookup s₁.asset_store b = none := by
            rw [mapLookup_mapInsert, if_neg (fun hc => hbne hc.symm)] at hb
            exact hb
          rw [mapLookup_mapRemove _ _ _ hbne, mapLookup_mapRemove _ _ _ hbne]
          exact hlr b hb'
  | .prog now idx =>
    cases hget : s₁.todo_instructions[idx]? with
    | none =>
      have hget₂ : s₂.todo_instructions[idx]? = none := by
        rw [← htodo]; exact hget
      exact Or.inr ⟨s₁, s₂, [], by simp [step, hget], by simp [step, hget₂],
        hstore, htodo, hlr⟩
    | some ins =>
      have hget₂ : s₂.todo_instructions[idx]? = some ins := by
        rw [← htodo]; exact hget
      match ins with
      | .AcquireAssetFrom asset_id site_id =>
        cases hl : mapLookup s₁.asset_store asset_id with
        | some d =>
          have hl₂ : mapLookup s₂.asset_store asset_id = some d := by
            rw [← hstore]; exact hl
          refine Or.inr
            ⟨⟨s₁.asset_store, swapRemove s₁.todo_instructions idx, s₁.last_requested_at⟩,
              ⟨s₂.asset_store, swapRemove s₂.todo_instructions idx, s₂.last_requested_at⟩,
              [], ?_, ?_, ?_⟩
          · simp [step, hget, try_complete, hl]
          · simp [step, hget₂, try_complete, hl₂]
          · exact ⟨hstore, by simp only [htodo], fun b hb => hlr b hb⟩
        | none =>
          have hl₂ : mapLookup s₂.asset_store asset_id = none := by
            rw [← hstore]; exact hl
          have hreq : mapLookup s₁.last_requested_at asset_id =
              mapLookup s₂.last_requested_at asset_id := hlr asset_id hl
          by_cases hrec : (match mapLookup s₁.last_requested_at asset_id with
            | some at_ => decide (now - at_ < REQUEST_PERIOD)
            | none => false) = true
          · refine Or.inr ⟨s₁, s₂, [], ?_, ?_, hstore, htodo, hlr⟩
            · simp [step, hget, try_complete, hl, hrec]
            · simp [step, hget₂, try_complete, hl₂, ← hreq, hrec]
          · rw [Bool.not_eq_true] at hrec
            refine Or.inr
              ⟨⟨s₁.asset_store, s₁.todo_instructions,
                  mapInsert s₁.last_requested_at asset_id now⟩,
                ⟨s₂.asset_store, s₂.todo_instructions,
                  mapInsert s₂.last_requested_at asset_id now⟩,
                [(site_id, .AssetDataRequest asset_id)], ?_, ?_, ?_⟩
            · simp [step, hget, try_complete, hl, hrec]
            · simp [step, hget₂, try_complete, hl₂, ← hreq, hrec]
            · refine ⟨hstore, htodo, ?_⟩
              intro b hb
              rw [mapLookup_mapInsert, mapLookup_mapInsert]
              by_cases hba : asset_id = b
              · simp [hba]
              · rw [if_neg hba, if_neg hba]
                exact hlr b hb
      | .SendAssetTo asset_id site_id =>
        cases hl : mapLookup s₁.asset_store asset_id with
        | some d =>
          have hl₂ : mapLookup s₂.asset_store asset_id = some d := by
            rw [← hstore]; exact hl
          refine Or.inr
            ⟨⟨s₁.asset_store, swapRemove s₁.todo_instructions idx, s₁.last_requested_at⟩,
              ⟨s₂.asset_store, swapRemove s₂.todo_instructions idx, s₂.last_requested_at⟩,
              [(site_id, .AssetData asset_id d)], ?_, ?_, ?_⟩
          · simp [step, hget, try_complete, hl]
          · simp [step, hget₂, try_complete, hl₂]
          · exact ⟨hstore, by simp only [htodo], fun b hb => hlr b hb⟩
        | none =>
          have hl₂ : mapLookup s₂.asset_store asset_id = none := by
            rw [← hstore]; exact hl
          refine Or.inr ⟨s₁, s₂, [], ?_, ?_, hstore, htodo, hlr⟩
          · simp [step, hget, try_complete, hl]
          · simp [step, hget₂, try_complete, hl₂]
      | .ComputeAssetData compute_args =>
        by_cases hall : compute_args.needed_assets.all
            (fun asset_id => (mapLookup s₁.asset_store asset_id).isSome) = true
        · have hall₂ : compute_args.needed_assets.all
              (fun asset_id => (mapLookup s₂.asset_store asset_id).isSome) = true := by
            rw [← hstore]; exact hall
          cases hac : actual_compute s₁.asset_store compute_args with
          | none =>
            have hac₂ : actual_compute s₂.asset_store compute_args = none := by
              rw [← hstore]; exact hac
            refine Or.inl ⟨?_, ?_⟩
            · simp [step, hget, try_complete, hall, hac]
            · simp [step, hget₂, try_complete, hall₂, hac₂]
          | some new_assets =>
            have hac₂ : actual_compute s₂.asset_store compute_args = some new_assets := by
              rw [← hstore]; exact hac
            refine Or.inr
              ⟨⟨new_assets.foldl (fun s p => mapInsert s p.1 p.2) s₁.asset_store,
                  swapRemove s₁.todo_instructions idx, s₁.last_requested_at⟩,
                ⟨new_assets.foldl (fun s p => mapInsert s p.1 p.2) s₂.asset_store,
                  swapRemove s₂.todo_instructions idx, s₂.last_requested_at⟩,
                [], ?_, ?_, ?_⟩
            · simp [step, hget, try_complete, hall, hac]
            · simp [step, hget₂, try_complete, hall₂, hac₂]
            · refine ⟨by rw [hstore], by simp only [htodo], ?_⟩
              intro b hb
              have hb' : mapLookup s₁.asset_store b = none := by
                cases hx : mapLookup s₁.asset_store b with
                | none => rfl
                | some v =>
                  have := lookup_foldl_mapInsert_isSome new_assets s₁.asset_store b
                    (by rw [hx]; rfl)
                  rw [hb] at this
                  exact absurd this (by simp)
              exact hlr b hb'
        · have hall₂ : ¬ compute_args.needed_assets.all
              (fun asset_id => (mapLookup s₂.asset_store asset_id).isSome) = true := by
            rw [← hstore]; exact hall
          refine Or.inr ⟨s₁, s₂, [], ?_, ?_, hstore, htodo, hlr⟩
          · simp [step, hget, try_complete, hall]
          · simp [step, hget₂, try_complete, hall₂]

/-- Bisimilar states produce identical outputs and stay bisimilar along any
event schedule. -/
theorem run_bisim : ∀ (es : List Event) (s₁ s₂ : SiteState), obsEquiv s₁ s₂ →
    (run s₁ es = none ∧ run s₂ es = none) ∨
    ∃ f₁ f₂ outs, run s₁ es = some (f₁, outs) ∧ run s₂ es = some (f₂, outs) ∧
      obsEquiv f₁ f₂ := by
  intro es
  induction es with
  | nil => intro s₁ s₂ h; exact Or.inr ⟨s₁, s₂, [], rfl, rfl, h⟩
  | cons e rest ih =>
    intro s₁ s₂ h
    rcases step_bisim s₁ s₂ e h with ⟨h1, h2⟩ | ⟨t₁, t₂, outs₀, h1, h2, h3⟩
    · exact Or.inl ⟨by simp [run, h1], by simp [run, h2]⟩
    · rcases ih t₁ t₂ h3 with ⟨r1, r2⟩ | ⟨f₁, f₂, outs₂, r1, r2, r3⟩
      · exact Or.inl ⟨by simp [run, h1, r1], by simp [run, h2, r2]⟩
      · exact Or.inr ⟨f₁, f₂, outs₀.map (fun o => (e.time, o.1, o.2)) ++ outs₂,
          by simp [run, h1, r1], by simp [run, h2, r2], r3⟩

/-- C7: delivering a verified `AssetData{a, d}` to a site whose store already
maps `a` to `d` is observationally a no-op.  The handler evicts `a` from
`last_requested_at` and re-inserts `a ↦ d` (which leaves the store list
unchanged), and along every subsequent event schedule the site emits exactly
the same messages, aborts in exactly the same cases, and ends in an
observationally equivalent state (same store, same todo list, same
rate-limit records for unstored assets) as the site that never received the
message. -/
theorem c7_redundant_delivery_no_op (st : SiteState) (a : AssetId)
    (d : AssetData) (now : Nat) (sender : SiteId) (es : List Event)
    (h : mapLookup st.asset_store a = some d) :
    (run st (.recv now true sender (.AssetData a d) :: es) = none ∧
        run st es = none) ∨
    ∃ f₁ f₂ outs,
      run st (.recv now true sender (.AssetData a d) :: es) = some (f₁, outs) ∧
      run st es = some (f₂, outs) ∧ obsEquiv f₁ f₂ := by
  have hstep : step st (.recv now true sender (.AssetData a d)) =
      some (⟨mapInsert st.asset_store a d, st.todo_instructions,
        mapRemove st.last_requested_at a⟩, []) := by
    simp [step, handleMsg]
  have hins : mapInsert st.asset_store a d = st.asset_store :=
    mapInsert_self _ _ _ h
  have hequiv : obsEquiv ⟨mapInsert st.asset_store a d, st.todo_instructions,
      mapRemove st.last_requested_at a⟩ st := by
    refine ⟨hins, rfl, ?_⟩
    intro b hb
    simp only at hb
    rw [hins] at hb
    have hbne : b ≠ a := by
      intro hba
      rw [hba, h] at hb
      cases hb
    simpa using mapLookup_mapRemove st.last_requested_at a b hbne
  rcases run_bisim es _ st hequiv with ⟨r1, r2⟩ | ⟨f₁, f₂, outs₂, r1, r2, r3⟩
  · exact Or.inl ⟨by simp [run, hstep, r1], r2⟩
  · exact Or.inr ⟨f₁, f₂, outs₂, by simp [run, hstep, r1], r2, r3⟩

/-- Witness for C7 at a concrete input: a site already holding asset
`(0,0) ↦ 5` receives a redundant `AssetData` for it; the remaining (empty)
schedule yields the same outputs and an observationally equivalent state as
never receiving it. -/
theorem c7_redundant_delivery_no_op_witness :
    (run ⟨[(⟨⟨0⟩, ⟨0⟩⟩, ⟨5⟩)], [], [(⟨⟨0⟩, ⟨0⟩⟩, 2)]⟩
        [.recv 7 true ⟨1⟩ (.AssetData ⟨⟨0⟩, ⟨0⟩⟩ ⟨5⟩)] = none ∧
      run ⟨[(⟨⟨0⟩, ⟨0⟩⟩, ⟨5⟩)], [], [(⟨⟨0⟩, ⟨0⟩⟩, 2)]⟩ [] = none) ∨
    ∃ f₁ f₂ outs,
      run ⟨[(⟨⟨0⟩, ⟨0⟩⟩, ⟨5⟩)], [], [(⟨⟨0⟩, ⟨0⟩⟩, 2)]⟩
        [.recv 7 true ⟨1⟩ (.AssetData ⟨⟨0⟩, ⟨0⟩⟩ ⟨5⟩)] = some (f₁, outs) ∧
      run ⟨[(⟨⟨0⟩, ⟨0⟩⟩, ⟨5⟩)], [], [(⟨⟨0⟩, ⟨0⟩⟩, 2)]⟩ [] = some (f₂, outs) ∧
      obsEquiv f₁ f₂ :=
  c7_redundant_delivery_no_op ⟨[(⟨⟨0⟩, ⟨0⟩⟩, ⟨5⟩)], [], [(⟨⟨0⟩, ⟨0⟩⟩, 2)]⟩
    ⟨⟨0⟩, ⟨0⟩⟩ ⟨5⟩ 7 ⟨1⟩ [] (by decide)

/-! ### Store persistence and rebinding (C9) -/

theorem computeOutputs_keys (h : Nat) (outs : List AssetId) :
    (computeOutputs h outs).map Prod.fst = outs := by
  induction outs generalizing h with
  | nil => rfl
  | cons o rest ih => simp [computeOutputs, ih]

theorem lookup_foldl_mapInsert_cases (l : List (AssetId × AssetData))
    (m : List (AssetId × AssetData)) (a : AssetId) :
    mapLookup (l.foldl (fun s p => mapInsert s p.1 p.2) m) a = mapLookup m a ∨
    (a ∈ l.map Prod.fst ∧
      (mapLookup (l.foldl (fun s p => mapInsert s p.1 p.2) m) a).isSome) := by
  induction l generalizing m with
  | nil => exact Or.inl rfl
  | cons p rest ih =>
    simp only [List.foldl_cons]
    rcases ih (mapInsert m p.1 p.2) with hl | ⟨hmem, hsome⟩
    · rw [hl, mapLookup_mapInsert]
      by_cases hpa : p.1 = a
      · refine Or.inr ⟨by simp [hpa], ?_⟩
        rw [if_pos hpa]
        rfl
      · rw [if_neg hpa]
        exact Or.inl rfl
    · exact Or.inr ⟨by simp [hmem], hsome⟩

/-- C9 (amended): once an `AssetId` is in a site's `asset_store`, no step of
the engine removes it — the entry persists for the rest of the run; however
its value is not immutable: a step rebinds it to a different value exactly
when a verified `AssetData` message for that asset carries a different
payload, or a completed compute lists the already-stored asset among its
outputs (the handler and the compute branch insert-or-overwrite). -/
theorem c9_store_persistence (st : SiteState) (e : Event) (st' : SiteState)
    (outs : List (SiteId × Msg)) (a : AssetId) (d : AssetData)
    (hstep : step st e = some (st', outs))
    (h : mapLookup st.asset_store a = some d) :
    ∃ d', mapLookup st'.asset_store a = some d' ∧
      (d' ≠ d →
        (∃ now sender, e = .recv now true sender (.AssetData a d')) ∨
        (∃ now idx c, e = .prog now idx ∧
          st.todo_instructions[idx]? = some (.ComputeAssetData c) ∧
          a ∈ c.outputs)) := by
  match e with
  | .recv now valid sender msg =>
    by_cases hv : valid = true
    · subst hv
      match msg with
      | .AssetDataRequest asset_id =>
        have hst : st'.asset_store = st.asset_store := by
          cases hl : mapLookup st.asset_store asset_id with
          | some v =>
            simp only [step, handleMsg, hl, if_pos] at hstep
            injection hstep with h'
            simp only [Prod.mk.injEq] at h'
            rw [← h'.1]
          | none =>
            simp only [step, handleMsg, hl, if_pos] at hstep
            injection hstep with h'
            simp only [Prod.mk.injEq] at h'
            rw [← h'.1]
        exact ⟨d, by rw [hst]; exact h, fun hc => absurd rfl hc⟩
      | .AssetData asset_id asset_data =>
        simp only [step, handleMsg, if_pos] at hstep
        injection hstep with h'
        simp only [Prod.mk.injEq] at h'
        obtain ⟨h1, h2⟩ := h'
        subst h1
        by_cases hba : asset_id = a
        · subst hba
          refine ⟨asset_data, ?_, ?_⟩
          · simp only
            rw [mapLookup_mapInsert, if_pos rfl]
          · intro _
            exact Or.inl ⟨now, sender, rfl⟩
        · refine ⟨d, ?_, fun hc => absurd rfl hc⟩
          simp only
          rw [mapLookup_mapInsert, if_neg hba]
          exact h
    · simp only [step, if_neg hv] at hstep
      injection hstep with h'
      simp only [Prod.mk.injEq] at h'
      obtain ⟨h1, h2⟩ := h'
      subst h1
      exact ⟨d, h, fun hc => absurd rfl hc⟩
  | .prog now idx =>
    cases hget : st.todo_instructions.get? idx with
    | none =>
      simp only [step, hget] at hstep
      injection hstep with h'
      simp only [Prod.mk.injEq] at h'
      obtain ⟨h1, h2⟩ := h'
      subst h1
      exact ⟨d, h, fun hc => absurd rfl hc⟩
    | some ins =>
      simp only [step, hget] at hstep
      cases htc : try_complete st now ins with
      | none => rw [htc] at hstep; exact absurd hstep (by simp)
      | some r =>
        rw [htc] at hstep
        obtain ⟨res, st₁, outs₁⟩ := r
        have hst : st'.asset_store = st₁.asset_store := by
          match res with
          | .Incomplete =>
            simp only [Option.map_some'] at hstep
            injection hstep with h'
            simp only [Prod.mk.injEq] at h'
            rw [← h'.1]
          | .Complete b =>
            simp only [Option.map_some'] at hstep
            injection hstep with h'
            simp only [Prod.mk.injEq] at h'
            rw [← h'.1]
        rw [hst]
        clear hst hstep
        match ins with
        | .AcquireAssetFrom asset_id site_id =>
          have hst₁ : st₁.asset_store = st.asset_store := by
            simp only [try_complete] at htc
            by_cases hin : (mapLookup st.asset_store asset_id).isSome
            · rw [if_pos hin] at htc
              injection htc with h'
              simp only [Prod.mk.injEq] at h'
              rw [← h'.2.1]
            · rw [if_neg hin] at htc
              by_cases hrec : (match mapLookup st.last_requested_at asset_id with
                | some at_ => decide (now - at_ < REQUEST_PERIOD)
                | none => false) = true
              · rw [hrec] at htc
                simp only [Bool.not_true, if_neg (by simp : ¬ (false = true))] at htc
                injection htc with h'
                simp only [Prod.mk.injEq] at h'
                rw [← h'.2.1]
              · rw [Bool.not_eq_true] at hrec
                rw [hrec] at htc
                simp only [Bool.not_false, if_pos rfl] at htc
                injection htc with h'
                simp only [Prod.mk.injEq] at h'
                rw [← h'.2.1]
          rw [hst₁]
          exact ⟨d, h, fun hc => absurd rfl hc⟩
        | .SendAssetTo asset_id site_id =>
          have hst₁ : st₁.asset_store = st.asset_store := by
            simp only [try_complete] at htc
            cases hl : mapLookup st.asset_store asset_id with
            | some v =>
              rw [hl] at htc
              injection htc with h'
              simp only [Prod.mk.injEq] at h'
              rw [← h'.2.1]
            | none =>
              rw [hl] at htc
              injection htc with h'
              simp only [Prod.mk.injEq] at h'
              rw [← h'.2.1]
          rw [hst₁]
          exact ⟨d, h, fun hc => absurd rfl hc⟩
        | .ComputeAssetData compute_args =>
          simp only [try_complete] at htc
          by_cases hall : compute_args.needed_assets.all
              (fun asset_id => (mapLookup st.asset_store asset_id).isSome) = true
          · rw [if_pos hall] at htc
            cases hac : actual_compute st.asset_store compute_args with
            | none => rw [hac] at htc; exact absurd htc (by simp)
            | some new_assets =>
              rw [hac] at htc
              injection htc with h'
              simp only [Prod.mk.injEq] at h'
              obtain ⟨hr1, hr2, hr3⟩ := h'
              rw [← hr2]
              simp only
              have hkeys : new_assets.map Prod.fst = compute_args.outputs := by
                simp only [actual_compute] at hac
                cases hf : compute_args.needed_assets.foldlM
                    (fun h needed_asset => (mapLookup st.asset_store needed_asset).map
                      (fun d => fnvWriteU64 h d.bits)) fnvOffsetBasis with
                | none => rw [hf] at hac; exact absurd hac (by simp)
                | some hv =>
                  rw [hf] at hac
                  simp only [Option.map_some'] at hac
                  injection hac with hac'
                  rw [← hac', computeOutputs_keys]
              rcases lookup_foldl_mapInsert_cases new_assets st.asset_store a with
                hsame | ⟨hmem, hsome⟩
              · exact ⟨d, by rw [hsame]; exact h, fun hc => absurd rfl hc⟩
              · obtain ⟨d', hd'⟩ := Option.isSome_iff_exists.mp hsome
                refine ⟨d', hd', ?_⟩
                intro _
                refine Or.inr ⟨now, idx, compute_args, rfl, ?_, ?_⟩
                · rw [← List.get?_eq_getElem?]
                  exact hget
                · rw [← hkeys]
                  exact hmem
          · rw [if_neg hall] at htc
            injection htc with h'
            simp only [Prod.mk.injEq] at h'
            rw [← h'.2.1]
            exact ⟨d, h, fun hc => absurd rfl hc⟩

/-- Counterexample for C9 as stated: a verified `AssetData` message carrying
a different payload for an already-stored asset rebinds the store entry — the
claim that no step of the engine ever rebinds an entry to a different value
is false. -/
theorem c9_rebind_counterexample :
    mapLookup [(⟨⟨0⟩, ⟨0⟩⟩, (⟨0⟩ : AssetData))] ⟨⟨0⟩, ⟨0⟩⟩ = some ⟨0⟩ ∧
    step ⟨[(⟨⟨0⟩, ⟨0⟩⟩, ⟨0⟩)], [], []⟩
        (.recv 0 true ⟨1⟩ (.AssetData ⟨⟨0⟩, ⟨0⟩⟩ ⟨1⟩)) =
      some (⟨[(⟨⟨0⟩, ⟨0⟩⟩, ⟨1⟩)], [], []⟩, []) ∧
    ((⟨1⟩ : AssetData) ≠ ⟨0⟩) := by
  exact ⟨rfl, rfl, by decide⟩

/-- Witness for C9 (amended) at a concrete input: a stored entry survives a
`prog` attempt on an acquire instruction for a different asset. -/
theorem c9_store_persistence_witness :
    ∃ d', mapLookup
        ((⟨[(⟨⟨0⟩, ⟨0⟩⟩, ⟨3⟩)], [], []⟩ : SiteState).asset_store) ⟨⟨0⟩, ⟨0⟩⟩ =
          some d' ∧
      (d' ≠ ⟨3⟩ →
        (∃ now sender, Event.recv 5 false ⟨1⟩ (.AssetDataRequest ⟨⟨0⟩, ⟨1⟩⟩) =
          .recv now true sender (.AssetData ⟨⟨0⟩, ⟨0⟩⟩ d')) ∨
        (∃ now idx c, Event.recv 5 false ⟨1⟩ (.AssetDataRequest ⟨⟨0⟩, ⟨1⟩⟩) =
            .prog now idx ∧
          (⟨[(⟨⟨0⟩, ⟨0⟩⟩, ⟨3⟩)], [], []⟩ : SiteState).todo_instructions[idx]? =
            some (.ComputeAssetData c) ∧
          (⟨⟨0⟩, ⟨0⟩⟩ : AssetId) ∈ c.outputs)) :=
  c9_store_persistence ⟨[(⟨⟨0⟩, ⟨0⟩⟩, ⟨3⟩)], [], []⟩
    (.recv 5 false ⟨1⟩ (.AssetDataRequest ⟨⟨0⟩, ⟨1⟩⟩))
    ⟨[(⟨⟨0⟩, ⟨0⟩⟩, ⟨3⟩)], [], []⟩ [] ⟨⟨0⟩, ⟨0⟩⟩ ⟨3⟩ (by decide) (by decide)

/-! ### The planner (`src/planning.rs`)

`HashSet` iteration is determinized as list order; `HashSet::insert` is an
append (duplicates are harmless: `contains`, `all` and first-match selection
read only membership and first occurrences, and an appended duplicate
changes neither). -/

/-- `asset_filter_mapper` (`src/planning.rs:12`): keep the sites paired with
the filtered asset. -/
def asset_filter_mapper (filter_asset : AssetId) : SiteId × AssetId → Option SiteId :=
  fun p => if p.2 = filter_asset then some p.1 else none

/-- `site_for_compute` (`src/planning.rs:24`): the first site in iteration
order that may compute the compute asset and may access every needed
asset. -/
def site_for_compute (problem : Problem) (compute_args : ComputeArgs) :
    Option SiteId :=
  ((problem.may_compute.filterMap
      (asset_filter_mapper compute_args.compute_asset)).filter
    (fun site_id => compute_args.needed_assets.all
      (fun needed_asset => decide ((site_id, needed_asset) ∈ problem.may_access)))).head?

/-- The planner's symbolic store (`SymbolicStore`): who symbolically holds
what, plus the projection "someone has this asset". -/
structure SymbolicStore where
  site_has_asset : List (SiteId × AssetId)
  someone_has_asset : List AssetId
deriving DecidableEq, Repr

/-- `SymbolicStore::with_assets`. -/
def SymbolicStore.with_assets (site_has_asset : List (SiteId × AssetId)) :
    SymbolicStore :=
  { site_has_asset := site_has_asset
    someone_has_asset := site_has_asset.map Prod.snd }

/-- `SymbolicStore::insert`. -/
def SymbolicStore.insert (st : SymbolicStore) (site_id : SiteId)
    (asset_id : AssetId) : SymbolicStore :=
  { site_has_asset := st.site_has_asset ++ [(site_id, asset_id)]
    someone_has_asset := st.someone_has_asset ++ [asset_id] }

/-- "Feasible" in `take_feasible_compute`: all needed assets symbolically
available. -/
def feasible (someone_has_asset : List AssetId) (compute_args : ComputeArgs) :
    Bool :=
  compute_args.needed_assets.all (fun asset_id => decide (asset_id ∈ someone_has_asset))

/-- `SymbolicProgress::take_feasible_compute` (`src/planning.rs:58`): remove
and return the first feasible compute; `none` when no compute is feasible
(the caller then succeeds if no compute remains, else reports
`CyclicCausality` naming the first remaining one). -/
def take_feasible_compute (someone_has_asset : List AssetId) :
    List ComputeArgs → Option (ComputeArgs × List ComputeArgs)
  | [] => none
  | c :: rest =>
    if feasible someone_has_asset c then some (c, rest)
    else
      match take_feasible_compute someone_has_asset rest with
      | none => none
      | some (c', rest') => some (c', c :: rest')

/-- The source-site selection of the routing loop
(`symbolic_store.site_has_asset.iter().filter_map(asset_filter_mapper(..)).next()`),
determinized to insertion order — one possible outcome of the `HashSet`'s
unspecified iteration order.  The claims proved over the resulting `plan`
(C1, C2) depend on that order only through set membership and emptiness, so
they hold for every order; order-sensitive properties of the routing source
(C3) are instead settled over `planChoice` below, where every iteration
outcome is an explicit, validated input. -/
def firstHolder (site_has_asset : List (SiteId × AssetId)) (asset_id : AssetId) :
    Option SiteId :=
  (site_has_asset.filterMap (asset_filter_mapper asset_id)).head?

/-- The routing inner loop of `plan` (`src/planning.rs:110`): for each needed
asset not already at the compute site, pick the first symbolic holder, mark
the asset held at the compute site, and record the
`SendAssetTo`/`AcquireAssetFrom` pair (in push order).  `none` is the
`expect` panic when no holder exists, proved unreachable below. -/
def routeNeeded (compute_site : SiteId) :
    SymbolicStore → List AssetId →
    Option (SymbolicStore × List (SiteId × Instruction))
  | store, [] => some (store, [])
  | store, needed_asset :: rest =>
    if (compute_site, needed_asset) ∈ store.site_has_asset then
      routeNeeded compute_site store rest
    else
      match firstHolder store.site_has_asset needed_asset with
      | none => none
      | some having_site =>
        match routeNeeded compute_site (store.insert compute_site needed_asset) rest with
        | none => none
        | some (store', log) =>
          some (store',
            (having_site, .SendAssetTo needed_asset compute_site) ::
              (compute_site, .AcquireAssetFrom needed_asset having_site) :: log)

/-- The main loop of `plan` (`src/planning.rs:90`).  The per-site
`push_instruction` calls are recorded as one flat log in push order;
`planFor` filters it back into the per-site vectors the source accumulates
in its `HashMap` (per-site relative order is preserved exactly).  The fuel
is the number of remaining computes (each iteration removes one); fuel
exhaustion is unreachable from `plan` and modelled as `none`, like the
routing panic. -/
def planAux (problem : Problem) :
    Nat → SymbolicStore → List ComputeArgs →
    Option (Except PlanError (List (SiteId × Instruction)))
  | 0, store, computes_todo =>
    match take_feasible_compute store.someone_has_asset computes_todo with
    | none =>
      match computes_todo.head? with
      | none => some (.ok [])
      | some remaining_compute => some (.error (.CyclicCausality remaining_compute))
    | some _ => none
  | fuel + 1, store, computes_todo =>
    match take_feasible_compute store.someone_has_asset computes_todo with
    | none =>
      match computes_todo.head? with
      | none => some (.ok [])
      | some remaining_compute => some (.error (.CyclicCausality remaining_compute))
    | some (next_compute, rest) =>
      match site_for_compute problem next_compute with
      | none => some (.error (.NoSiteForCompute next_compute))
      | some compute_site =>
        match routeNeeded compute_site store next_compute.needed_assets with
        | none => none
        | some (store', routeLog) =>
          let store'' := next_compute.outputs.foldl
            (fun st out => st.insert compute_site out) store'
          (planAux problem fuel store'' rest).map
            (fun exc => exc.map (fun log =>
              (compute_site, .ComputeAssetData next_compute) :: (routeLog ++ log)))

/-- `plan` (`src/planning.rs:76`). -/
def plan (problem : Problem) :
    Option (Except PlanError (List (SiteId × Instruction))) :=
  planAux problem problem.do_compute.length
    (SymbolicStore.with_assets problem.site_has_asset) problem.do_compute

/-- Per-site instruction list of a flat plan log: the vector the source
builds by per-site pushes. -/
def planFor (log : List (SiteId × Instruction)) (site_id : SiteId) :
    List Instruction :=
  (log.filter (fun e => decide (e.1 = site_id))).map Prod.snd

/-! ### Cycle detection (C1)

The following three definitions follow the words of the claim, not the
source: the bipartite dependency graph over `do_compute` has an edge from
`u` to `v` when some input of `u` is an output of `v`, and a cycle is a
nonempty dependency path from some compute back to itself. -/

/-- Claim-side dependency edge: `u` depends on `v` when some input of `u` is
an output of `v`. -/
def specDependsOn (u v : ComputeArgs) : Bool :=
  u.inputs.any (fun i => decide (i ∈ v.outputs))

/-- Claim-side bounded reachability along dependency edges through the
computes of `l` (a path of length ≤ `n + 1`). -/
def specReaches (l : List ComputeArgs) : Nat → ComputeArgs → ComputeArgs → Bool
  | 0, u, v => specDependsOn u v
  | n + 1, u, v =>
    specDependsOn u v || l.any (fun w => specDependsOn u w && specReaches l n w v)

/-- Claim-side cycle: some compute of `l` reaches itself by a nonempty
dependency path (paths longer than `l.length` revisit a node, so the bound
is complete). -/
def specHasCycle (l : List ComputeArgs) : Bool :=
  l.any (fun c => specReaches l l.length c c)

/-- The planner's phase-1 saturation, with the site-selection and routing
stripped out: repeatedly take the first feasible compute and make its
outputs available, returning the computes processed in order and, if stuck,
the first remaining compute. -/
def saturateAux : Nat → List AssetId → List ComputeArgs →
    List ComputeArgs × Option ComputeArgs
  | 0, someone_has_asset, computes_todo =>
    match take_feasible_compute someone_has_asset computes_todo with
    | none => ([], computes_todo.head?)
    | some _ => ([], none)
  | fuel + 1, someone_has_asset, computes_todo =>
    match take_feasible_compute someone_has_asset computes_todo with
    | none => ([], computes_todo.head?)
    | some (next_compute, rest) =>
      let r := saturateAux fuel (someone_has_asset ++ next_compute.outputs) rest
      (next_compute :: r.1, r.2)

/-- The saturation of a whole problem: processed computes in order and the
stuck compute, if any. -/
def saturate (problem : Problem) : List ComputeArgs × Option ComputeArgs :=
  saturateAux problem.do_compute.length
    (problem.site_has_asset.map Prod.snd) problem.do_compute

/-- Counterexample for C1 as stated, in both directions.  A single compute
whose input is simply missing (held by no site and produced by no compute)
makes the planner return `CyclicCausality` although the dependency graph has
no cycle; and a two-compute dependency cycle whose inputs are all initially
available is planned successfully although the graph has a cycle. -/
theorem c1_cycle_iff_counterexample :
    (plan ⟨[], [], [], [⟨[⟨⟨9⟩, ⟨0⟩⟩], [⟨⟨9⟩, ⟨1⟩⟩], ⟨⟨9⟩, ⟨2⟩⟩⟩]⟩ =
        some (.error (.CyclicCausality ⟨[⟨⟨9⟩, ⟨0⟩⟩], [⟨⟨9⟩, ⟨1⟩⟩], ⟨⟨9⟩, ⟨2⟩⟩⟩)) ∧
      specHasCycle [⟨[⟨⟨9⟩, ⟨0⟩⟩], [⟨⟨9⟩, ⟨1⟩⟩], ⟨⟨9⟩, ⟨2⟩⟩⟩] = false) ∧
    (plan ⟨[(⟨0⟩, ⟨⟨9⟩, ⟨0⟩⟩), (⟨0⟩, ⟨⟨9⟩, ⟨1⟩⟩), (⟨0⟩, ⟨⟨9⟩, ⟨2⟩⟩), (⟨0⟩, ⟨⟨9⟩, ⟨3⟩⟩)],
        [(⟨0⟩, ⟨⟨9⟩, ⟨2⟩⟩), (⟨0⟩, ⟨⟨9⟩, ⟨3⟩⟩)],
        [(⟨0⟩, ⟨⟨9⟩, ⟨0⟩⟩), (⟨0⟩, ⟨⟨9⟩, ⟨1⟩⟩), (⟨0⟩, ⟨⟨9⟩, ⟨2⟩⟩), (⟨0⟩, ⟨⟨9⟩, ⟨3⟩⟩)],
        [⟨[⟨⟨9⟩, ⟨0⟩⟩], [⟨⟨9⟩, ⟨1⟩⟩], ⟨⟨9⟩, ⟨2⟩⟩⟩, ⟨[⟨⟨9⟩, ⟨1⟩⟩], [⟨⟨9⟩, ⟨0⟩⟩], ⟨⟨9⟩, ⟨3⟩⟩⟩]⟩ =
        some (.ok
          [(⟨0⟩, .ComputeAssetData ⟨[⟨⟨9⟩, ⟨0⟩⟩], [⟨⟨9⟩, ⟨1⟩⟩], ⟨⟨9⟩, ⟨2⟩⟩⟩),
            (⟨0⟩, .ComputeAssetData ⟨[⟨⟨9⟩, ⟨1⟩⟩], [⟨⟨9⟩, ⟨0⟩⟩], ⟨⟨9⟩, ⟨3⟩⟩⟩)]) ∧
      specHasCycle
        [⟨[⟨⟨9⟩, ⟨0⟩⟩], [⟨⟨9⟩, ⟨1⟩⟩], ⟨⟨9⟩, ⟨2⟩⟩⟩,
          ⟨[⟨⟨9⟩, ⟨1⟩⟩], [⟨⟨9⟩, ⟨0⟩⟩], ⟨⟨9⟩, ⟨3⟩⟩⟩] = true) := by
  refine ⟨⟨rfl, by decide⟩, ⟨rfl, by decide⟩⟩

/-! ### Planner lemmas -/

theorem feasible_congr {s₁ s₂ : List AssetId} (h : ∀ a, a ∈ s₁ ↔ a ∈ s₂)
    (c : ComputeArgs) : feasible s₁ c = feasible s₂ c := by
  rw [Bool.eq_iff_iff]
  simp only [feasible, List.all_eq_true, decide_eq_true_eq]
  exact ⟨fun hf a ha => (h a).mp (hf a ha), fun hf a ha => (h a).mpr (hf a ha)⟩

theorem feasible_mem {s : List AssetId} {c : ComputeArgs}
    (h : feasible s c = true) : ∀ a ∈ c.needed_assets, a ∈ s := by
  simp only [feasible, List.all_eq_true, decide_eq_true_eq] at h
  exact h

theorem take_feasible_congr {s₁ s₂ : List AssetId} (h : ∀ a, a ∈ s₁ ↔ a ∈ s₂) :
    ∀ todo, take_feasible_compute s₁ todo = take_feasible_compute s₂ todo := by
  intro todo
  induction todo with
  | nil => rfl
  | cons c rest ih =>
    simp only [take_feasible_compute, feasible_congr h c, ih]

theorem take_feasible_length {s : List AssetId} :
    ∀ {todo c rest}, take_feasible_compute s todo = some (c, rest) →
      rest.length + 1 = todo.length := by
  intro todo
  induction todo with
  | nil => intro c rest h; exact absurd h (by simp [take_feasible_compute])
  | cons c₀ rest₀ ih =>
    intro c rest h
    simp only [take_feasible_compute] at h
    by_cases hf : feasible s c₀ = true
    · rw [if_pos hf] at h
      injection h with h'
      simp only [Prod.mk.injEq] at h'
      obtain ⟨h1, h2⟩ := h'
      subst h2
      simp
    · rw [if_neg hf] at h
      cases hrec : take_feasible_compute s rest₀ with
      | none => rw [hrec] at h; exact absurd h (by simp)
      | some pr =>
        obtain ⟨c', rest'⟩ := pr
        rw [hrec] at h
        injection h with h'
        simp only [Prod.mk.injEq] at h'
        obtain ⟨h1, h2⟩ := h'
        subst h1; subst h2
        have := ih hrec
        simp only [List.length_cons]
        omega

theorem take_feasible_feasible {s : List AssetId} :
    ∀ {todo c rest}, take_feasible_compute s todo = some (c, rest) →
      feasible s c = true := by
  intro todo
  induction todo with
  | nil => intro c rest h; exact absurd h (by simp [take_feasible_compute])
  | cons c₀ rest₀ ih =>
    intro c rest h
    simp only [take_feasible_compute] at h
    by_cases hf : feasible s c₀ = true
    · rw [if_pos hf] at h
      injection h with h'
      simp only [Prod.mk.injEq] at h'
      obtain ⟨h1, h2⟩ := h'
      subst h1
      exact hf
    · rw [if_neg hf] at h
      cases hrec : take_feasible_compute s rest₀ with
      | none => rw [hrec] at h; exact absurd h (by simp)
      | some pr =>
        obtain ⟨c', rest'⟩ := pr
        rw [hrec] at h
        injection h with h'
        simp only [Prod.mk.injEq] at h'
        obtain ⟨h1, h2⟩ := h'
        subst h1
        exact ih hrec

theorem take_feasible_mem {s : List AssetId} :
    ∀ {todo c rest}, take_feasible_compute s todo = some (c, rest) →
      ∀ x ∈ todo, x = c ∨ x ∈ rest := by
  intro todo
  induction todo with
  | nil => intro c rest h; exact absurd h (by simp [take_feasible_compute])
  | cons c₀ rest₀ ih =>
    intro c rest h x hx
    simp only [take_feasible_compute] at h
    by_cases hf : feasible s c₀ = true
    · rw [if_pos hf] at h
      injection h with h'
      simp only [Prod.mk.injEq] at h'
      obtain ⟨h1, h2⟩ := h'
      subst h1; subst h2
      rcases List.mem_cons.mp hx with h | h
      · exact Or.inl h
      · exact Or.inr h
    · rw [if_neg hf] at h
      cases hrec : take_feasible_compute s rest₀ with
      | none => rw [hrec] at h; exact absurd h (by simp)
      | some pr =>
        obtain ⟨c', rest'⟩ := pr
        rw [hrec] at h
        injection h with h'
        simp only [Prod.mk.injEq] at h'
        obtain ⟨h1, h2⟩ := h'
        subst h1; subst h2
        rcases List.mem_cons.mp hx with h | h
        · exact Or.inr (by rw [h]; exact List.mem_cons_self c₀ rest')
        · rcases ih hrec x h with h' | h'
          · exact Or.inl h'
          · exact Or.inr (List.mem_cons_of_mem c₀ h')

theorem firstHolder_some_mem {l : List (SiteId × AssetId)} {a : AssetId}
    {s : SiteId} (h : firstHolder l a = some s) : (s, a) ∈ l := by
  induction l with
  | nil => exact absurd h (by simp [firstHolder])
  | cons p rest ih =>
    obtain ⟨ps, pa⟩ := p
    by_cases hpa : pa = a
    · subst hpa
      simp only [firstHolder, List.filterMap_cons, asset_filter_mapper, if_pos rfl,
        List.head?_cons] at h
      injection h with h'
      subst h'
      exact List.mem_cons_self _ _
    · simp only [firstHolder, List.filterMap_cons, asset_filter_mapper, if_neg hpa] at h
      exact List.mem_cons_of_mem _ (ih h)

theorem firstHolder_isSome_of_mem {l : List (SiteId × AssetId)} {a : AssetId}
    (h : a ∈ l.map Prod.snd) : (firstHolder l a).isSome := by
  induction l with
  | nil => simp at h
  | cons p rest ih =>
    obtain ⟨ps, pa⟩ := p
    by_cases hpa : pa = a
    · subst hpa
      simp [firstHolder, List.filterMap_cons, asset_filter_mapper]
    · simp only [List.map_cons, List.mem_cons] at h
      rcases h with h | h
      · exact absurd h.symm hpa
      · simp only [firstHolder, List.filterMap_cons, asset_filter_mapper, if_neg hpa]
        exact ih h

/-- The planner's symbolic-store invariant: the "someone has it" projection
is exactly the second components of the holder set. -/
def StoreInv (store : SymbolicStore) : Prop :=
  store.someone_has_asset = store.site_has_asset.map Prod.snd

theorem StoreInv_with_assets (l : List (SiteId × AssetId)) :
    StoreInv (SymbolicStore.with_assets l) := rfl

theorem StoreInv_insert {store : SymbolicStore} (h : StoreInv store)
    (s : SiteId) (a : AssetId) : StoreInv (store.insert s a) := by
  simp only [StoreInv, SymbolicStore.insert, List.map_append, List.map_cons,
    List.map_nil] at h ⊢
  rw [h]

theorem routeNeeded_store {cs : SiteId} :
    ∀ {needed : List AssetId} {store store' : SymbolicStore}
      {log : List (SiteId × Instruction)}, StoreInv store →
      routeNeeded cs store needed = some (store', log) →
      StoreInv store' ∧
        (∀ a, a ∈ store'.someone_has_asset ↔ a ∈ store.someone_has_asset) := by
  intro needed
  induction needed with
  | nil =>
    intro store store' log hinv h
    simp only [routeNeeded] at h
    injection h with h'
    simp only [Prod.mk.injEq] at h'
    obtain ⟨h1, h2⟩ := h'
    subst h1
    exact ⟨hinv, fun a => Iff.rfl⟩
  | cons a rest ih =>
    intro store store' log hinv h
    simp only [routeNeeded] at h
    by_cases hc : (cs, a) ∈ store.site_has_asset
    · rw [if_pos hc] at h
      exact ih hinv h
    · rw [if_neg hc] at h
      cases hfh : firstHolder store.site_has_asset a with
      | none => rw [hfh] at h; exact absurd h (by simp)
      | some having =>
        rw [hfh] at h
        cases hroute : routeNeeded cs (store.insert cs a) rest with
        | none => rw [hroute] at h; exact absurd h (by simp)
        | some pr =>
          obtain ⟨store₁, log₁⟩ := pr
          rw [hroute] at h
          injection h with h'
          simp only [Prod.mk.injEq] at h'
          obtain ⟨h1, h2⟩ := h'
          subst h1; subst h2
          obtain ⟨hinv', hmem⟩ := ih (StoreInv_insert hinv cs a) hroute
          have hamem : a ∈ store.someone_has_asset := by
            rw [hinv]
            exact List.mem_map_of_mem Prod.snd (firstHolder_some_mem hfh)
          refine ⟨hinv', ?_⟩
          intro b
          rw [hmem b]
          simp only [SymbolicStore.insert, List.mem_append,
            List.mem_singleton]
          constructor
          · rintro (hb | hb)
            · exact hb
            · subst hb; exact hamem
          · intro hb
            exact Or.inl hb

theorem foldl_insert_fields (cs : SiteId) :
    ∀ (outs : List AssetId) (store : SymbolicStore),
      (outs.foldl (fun st out => st.insert cs out) store).someone_has_asset =
          store.someone_has_asset ++ outs ∧
        (outs.foldl (fun st out => st.insert cs out) store).site_has_asset =
          store.site_has_asset ++ outs.map (fun o => (cs, o)) := by
  intro outs
  induction outs with
  | nil => intro store; simp
  | cons o rest ih =>
    intro store
    simp only [List.foldl_cons]
    obtain ⟨h1, h2⟩ := ih (store.insert cs o)
    constructor
    · rw [h1]
      simp [SymbolicStore.insert, List.append_assoc]
    · rw [h2]
      simp [SymbolicStore.insert, List.append_assoc]

theorem StoreInv_foldl_insert {store : SymbolicStore} (h : StoreInv store)
    (cs : SiteId) (outs : List AssetId) :
    StoreInv (outs.foldl (fun st out => st.insert cs out) store) := by
  obtain ⟨h1, h2⟩ := foldl_insert_fields cs outs store
  simp only [StoreInv] at h ⊢
  rw [h1, h2, h, List.map_append]
  congr 1
  simp

theorem routeNeeded_isSome {cs : SiteId} :
    ∀ {needed : List AssetId} {store : SymbolicStore}, StoreInv store →
      (∀ a ∈ needed, a ∈ store.someone_has_asset) →
      (routeNeeded cs store needed).isSome := by
  intro needed
  induction needed with
  | nil => intro store _ _; simp [routeNeeded]
  | cons a rest ih =>
    intro store hinv hmem
    simp only [routeNeeded]
    by_cases hc : (cs, a) ∈ store.site_has_asset
    · rw [if_pos hc]
      exact ih hinv (fun b hb => hmem b (List.mem_cons_of_mem a hb))
    · rw [if_neg hc]
      have ha : a ∈ store.someone_has_asset := hmem a (List.mem_cons_self a rest)
      have hfh : (firstHolder store.site_has_asset a).isSome := by
        refine firstHolder_isSome_of_mem ?_
        rw [← hinv]
        exact ha
      obtain ⟨having, hh⟩ := Option.isSome_iff_exists.mp hfh
      rw [hh]
      have hrec := ih (StoreInv_insert hinv cs a) (fun b hb => by
        simp only [SymbolicStore.insert, List.mem_append]
        exact Or.inl (hmem b (List.mem_cons_of_mem a hb)))
      obtain ⟨pr, hpr⟩ := Option.isSome_iff_exists.mp hrec
      obtain ⟨store₁, log₁⟩ := pr
      rw [hpr]
      rfl

theorem planAux_isSome (problem : Problem) :
    ∀ (fuel : Nat) (store : SymbolicStore) (todo : List ComputeArgs),
      StoreInv store → todo.length ≤ fuel →
      (planAux problem fuel store todo).isSome := by
  intro fuel
  induction fuel with
  | zero =>
    intro store todo hinv hlen
    have : todo = [] := List.eq_nil_of_length_eq_zero (Nat.le_zero.mp hlen)
    subst this
    simp [planAux, take_feasible_compute]
  | succ f ih =>
    intro store todo hinv hlen
    cases hta : take_feasible_compute store.someone_has_asset todo with
    | none =>
      cases hh : todo.head? with
      | none => simp [planAux, hta, hh]
      | some c => simp [planAux, hta, hh]
    | some pr =>
      obtain ⟨c, rest⟩ := pr
      cases hsite : site_for_compute problem c with
      | none => simp [planAux, hta, hsite]
      | some cs =>
        have hfeas := feasible_mem (take_feasible_feasible hta)
        have hroute : (routeNeeded cs store c.needed_assets).isSome :=
          routeNeeded_isSome hinv hfeas
        obtain ⟨pr₂, hpr₂⟩ := Option.isSome_iff_exists.mp hroute
        obtain ⟨store', rlog⟩ := pr₂
        obtain ⟨hinv', _⟩ := routeNeeded_store hinv hpr₂
        have hinv'' := StoreInv_foldl_insert hinv' cs c.outputs
        have hlen' : rest.length ≤ f := by
          have := take_feasible_length hta
          omega
        have hrec := ih _ rest hinv'' hlen'
        obtain ⟨exc, hexc⟩ := Option.isSome_iff_exists.mp hrec
        simp [planAux, hta, hsite, hpr₂, hexc]

/-- The planner reports `CyclicCausality c` exactly when its saturation
(phase 1) gets stuck with `c` as the first remaining compute and every
compute processed before the stuck point has an eligible site. -/
theorem planAux_cyclic_iff (problem : Problem) :
    ∀ (fuel : Nat) (store : SymbolicStore) (todo : List ComputeArgs)
      (someoneS : List AssetId) (c : ComputeArgs),
      StoreInv store →
      (∀ a, a ∈ store.someone_has_asset ↔ a ∈ someoneS) →
      todo.length ≤ fuel →
      (planAux problem fuel store todo = some (.error (.CyclicCausality c)) ↔
        ((saturateAux fuel someoneS todo).2 = some c ∧
          ∀ c' ∈ (saturateAux fuel someoneS todo).1,
            (site_for_compute problem c').isSome)) := by
  intro fuel
  induction fuel with
  | zero =>
    intro store todo someoneS c hinv hmem hlen
    have htodo : todo = [] := List.eq_nil_of_length_eq_zero (Nat.le_zero.mp hlen)
    subst htodo
    simp [planAux, saturateAux, take_feasible_compute]
  | succ f ih =>
    intro store todo someoneS c hinv hmem hlen
    have htake := take_feasible_congr hmem todo
    cases hta : take_feasible_compute someoneS todo with
    | none =>
      have hta' : take_feasible_compute store.someone_has_asset todo = none := by
        rw [htake]; exact hta
      cases hh : todo.head? with
      | none =>
        have hplan : planAux problem (f + 1) store todo = some (.ok []) := by
          simp [planAux, hta', hh]
        have hsat : saturateAux (f + 1) someoneS todo = ([], none) := by
          simp [saturateAux, hta, hh]
        rw [hplan, hsat]
        simp
      | some r =>
        have hplan : planAux problem (f + 1) store todo =
            some (.error (.CyclicCausality r)) := by
          simp [planAux, hta', hh]
        have hsat : saturateAux (f + 1) someoneS todo = ([], some r) := by
          simp [saturateAux, hta, hh]
        rw [hplan, hsat]
        constructor
        · intro h
          injection h with h'
          injection h' with h''
          injection h'' with h3
          subst h3
          exact ⟨rfl, by simp⟩
        · rintro ⟨h1, h2⟩
          injection h1 with h1'
          subst h1'
          rfl
    | some pr =>
      obtain ⟨c₀, rest⟩ := pr
      have hta' : take_feasible_compute store.someone_has_asset todo =
          some (c₀, rest) := by
        rw [htake]; exact hta
      have hsat : saturateAux (f + 1) someoneS todo =
          (c₀ :: (saturateAux f (someoneS ++ c₀.outputs) rest).1,
            (saturateAux f (someoneS ++ c₀.outputs) rest).2) := by
        simp [saturateAux, hta]
      cases hsite : site_for_compute problem c₀ with
      | none =>
        have hplan : planAux problem (f + 1) store todo =
            some (.error (.NoSiteForCompute c₀)) := by
          simp [planAux, hta', hsite]
        rw [hplan, hsat]
        refine iff_of_false ?_ ?_
        · intro h
          injection h with h'
          injection h' with h''
          cases h''
        · rintro ⟨h1, h2⟩
          have := h2 c₀ (List.mem_cons_self _ _)
          rw [hsite] at this
          exact absurd this (by simp)
      | some cs =>
        have hfeas := feasible_mem (take_feasible_feasible hta')
        have hroute : (routeNeeded cs store c₀.needed_assets).isSome :=
          routeNeeded_isSome hinv hfeas
        obtain ⟨pr₂, hpr₂⟩ := Option.isSome_iff_exists.mp hroute
        obtain ⟨store', rlog⟩ := pr₂
        obtain ⟨hinv', hmem'⟩ := routeNeeded_store hinv hpr₂
        have hinv'' := StoreInv_foldl_insert hinv' cs c₀.outputs
        have hmem'' : ∀ a,
            a ∈ (c₀.outputs.foldl (fun st out => st.insert cs out)
              store').someone_has_asset ↔ a ∈ someoneS ++ c₀.outputs := by
          intro a
          rw [(foldl_insert_fields cs c₀.outputs store').1]
          simp only [List.mem_append]
          rw [hmem' a, hmem a]
        have hlen' : rest.length ≤ f := by
          have := take_feasible_length hta'
          omega
        have hiff := ih (c₀.outputs.foldl (fun st out => st.insert cs out) store')
          rest (someoneS ++ c₀.outputs) c hinv'' hmem'' hlen'
        have hplan : planAux problem (f + 1) store todo =
            (planAux problem f
              (c₀.outputs.foldl (fun st out => st.insert cs out) store') rest).map
              (fun exc => exc.map (fun log =>
                (cs, .ComputeAssetData c₀) :: (rlog ++ log))) := by
          simp [planAux, hta', hsite, hpr₂]
        rw [hplan, hsat]
        constructor
        · intro h
          cases hrec : planAux problem f
              (c₀.outputs.foldl (fun st out => st.insert cs out) store') rest with
          | none => rw [hrec] at h; exact absurd h (by simp)
          | some exc =>
            rw [hrec] at h
            simp only [Option.map_some'] at h
            injection h with h'
            match exc, h' with
            | .error e, h' =>
              have he : e = .CyclicCausality c := by
                injection h'
              subst he
              have hcond := hiff.mp hrec
              refine ⟨hcond.1, ?_⟩
              intro c' hc'
              rcases List.mem_cons.mp hc' with hc' | hc'
              · subst hc'
                rw [hsite]
                rfl
              · exact hcond.2 c' hc'
        · rintro ⟨h1, h2⟩
          have htail : ∀ c' ∈ (saturateAux f (someoneS ++ c₀.outputs) rest).1,
              (site_for_compute problem c').isSome :=
            fun c' hc' => h2 c' (List.mem_cons_of_mem _ hc')
          have := hiff.mpr ⟨h1, htail⟩
          rw [this]
          rfl

/-- C1 (amended): `plan` yields `Err(CyclicCausality(c))` exactly when the
symbolic saturation — start from the assets of `site_has_asset`, repeatedly
process any compute whose needed assets (inputs and compute asset) are all
available, adding its outputs — gets stuck with `c` as the first remaining
compute, while every compute processed before the stuck point has an
eligible site (otherwise `NoSiteForCompute` preempts).  This is not
equivalent to a cycle in the bipartite input/output dependency graph: a
merely missing base asset also triggers `CyclicCausality`, and a dependency
cycle whose inputs are all initially available is planned successfully (see
the counterexample). -/
theorem c1_cyclic_causality_characterization (problem : Problem)
    (c : ComputeArgs) :
    plan problem = some (.error (.CyclicCausality c)) ↔
      ((saturate problem).2 = some c ∧
        ∀ c' ∈ (saturate problem).1, (site_for_compute problem c').isSome) := by
  exact planAux_cyclic_iff problem problem.do_compute.length
    (SymbolicStore.with_assets problem.site_has_asset) problem.do_compute
    (problem.site_has_asset.map Prod.snd) c rfl (fun a => Iff.rfl) (Nat.le_refl _)

/-! ### Plan soundness (C2) -/

theorem routeNeeded_entries {cs : SiteId} :
    ∀ {needed : List AssetId} {store store' : SymbolicStore}
      {log : List (SiteId × Instruction)},
      routeNeeded cs store needed = some (store', log) →
      ∀ e ∈ log, (∃ aa ss, e.2 = Instruction.SendAssetTo aa ss) ∨
        (∃ aa ss, e.2 = Instruction.AcquireAssetFrom aa ss) := by
  intro needed
  induction needed with
  | nil =>
    intro store store' log h e he
    simp only [routeNeeded] at h
    injection h with h'
    simp only [Prod.mk.injEq] at h'
    obtain ⟨h1, h2⟩ := h'
    subst h2
    exact absurd he (by simp)
  | cons a rest ih =>
    intro store store' log h e he
    simp only [routeNeeded] at h
    by_cases hc : (cs, a) ∈ store.site_has_asset
    · rw [if_pos hc] at h
      exact ih h e he
    · rw [if_neg hc] at h
      cases hfh : firstHolder store.site_has_asset a with
      | none => rw [hfh] at h; exact absurd h (by simp)
      | some having =>
        rw [hfh] at h
        cases hroute : routeNeeded cs (store.insert cs a) rest with
        | none => rw [hroute] at h; exact absurd h (by simp)
        | some pr =>
          obtain ⟨store₁, log₁⟩ := pr
          rw [hroute] at h
          injection h with h'
          simp only [Prod.mk.injEq] at h'
          obtain ⟨h1, h2⟩ := h'
          subst h1; subst h2
          rcases List.mem_cons.mp he with he | he
          · subst he
            exact Or.inl ⟨a, cs, rfl⟩
          · rcases List.mem_cons.mp he with he | he
            · subst he
              exact Or.inr ⟨a, having, rfl⟩
            · exact ih hroute e he

theorem planAux_compute_entries (problem : Problem) :
    ∀ (fuel : Nat) (store : SymbolicStore) (todo : List ComputeArgs)
      (log : List (SiteId × Instruction)),
      planAux problem fuel store todo = some (.ok log) →
      (∀ S c, (S, Instruction.ComputeAssetData c) ∈ log →
        site_for_compute problem c = some S) ∧
      (∀ c ∈ todo, ∃ S, (S, Instruction.ComputeAssetData c) ∈ log) := by
  intro fuel
  induction fuel with
  | zero =>
    intro store todo log h
    cases hta : take_feasible_compute store.someone_has_asset todo with
    | none =>
      cases hh : todo.head? with
      | none =>
        have htodo : todo = [] := List.head?_eq_none_iff.mp hh
        subst htodo
        simp only [planAux, hta, hh] at h
        injection h with h'
        injection h' with h''
        subst h''
        exact ⟨fun S c hc => absurd hc (by simp), fun c hc => absurd hc (by simp)⟩
      | some r =>
        simp only [planAux, hta, hh] at h
        exact absurd h (by simp)
    | some pr =>
      simp only [planAux, hta] at h
      exact absurd h (by simp)
  | succ f ih =>
    intro store todo log h
    cases hta : take_feasible_compute store.someone_has_asset todo with
    | none =>
      cases hh : todo.head? with
      | none =>
        have htodo : todo = [] := List.head?_eq_none_iff.mp hh
        subst htodo
        simp only [planAux, hta, hh] at h
        injection h with h'
        injection h' with h''
        subst h''
        exact ⟨fun S c hc => absurd hc (by simp), fun c hc => absurd hc (by simp)⟩
      | some r =>
        simp only [planAux, hta, hh] at h
        exact absurd h (by simp)
    | some pr =>
      obtain ⟨c₀, rest⟩ := pr
      cases hsite : site_for_compute problem c₀ with
      | none =>
        simp only [planAux, hta, hsite] at h
        exact absurd h (by simp)
      | some cs =>
        cases hroute : routeNeeded cs store c₀.needed_assets with
        | none =>
          simp only [planAux, hta, hsite, hroute] at h
          exact absurd h (by simp)
        | some pr₂ =>
          obtain ⟨store', rlog⟩ := pr₂
          simp only [planAux, hta, hsite, hroute] at h
          cases hrec : planAux problem f
              (c₀.outputs.foldl (fun st out => st.insert cs out) store') rest with
          | none => rw [hrec] at h; exact absurd h (by simp)
          | some exc =>
            rw [hrec] at h
            simp only [Option.map_some'] at h
            match exc, h with
            | .ok l, h =>
              have hlog : log = (cs, .ComputeAssetData c₀) :: (rlog ++ l) := by
                injection h with h'
                injection h' with h''
                exact h''.symm
              subst hlog
              obtain ⟨ihent, ihex⟩ := ih _ rest l hrec
              constructor
              · intro S c hc
                rcases List.mem_cons.mp hc with hc | hc
                · injection hc with hc1 hc2
                  subst hc1
                  injection hc2 with hc2'
                  subst hc2'
                  exact hsite
                · rcases List.mem_append.mp hc with hc | hc
                  · rcases routeNeeded_entries hroute _ hc with ⟨aa, ss, he⟩ | ⟨aa, ss, he⟩
                    · exact absurd he (by simp)
                    · exact absurd he (by simp)
                  · exact ihent S c hc
              · intro c hc
                rcases take_feasible_mem hta c hc with hc' | hc'
                · subst hc'
                  exact ⟨cs, List.mem_cons_self _ _⟩
                · obtain ⟨S, hS⟩ := ihex c hc'
                  exact ⟨S, List.mem_cons_of_mem _ (List.mem_append_right _ hS)⟩

/-- Membership in a per-site instruction list is membership of the tagged
entry in the flat log. -/
theorem mem_planFor (log : List (SiteId × Instruction)) (S : SiteId)
    (i : Instruction) : i ∈ planFor log S ↔ (S, i) ∈ log := by
  simp only [planFor, List.mem_map, List.mem_filter, decide_eq_true_eq]
  constructor
  · rintro ⟨⟨s', i'⟩, ⟨hmem, hS⟩, hi⟩
    simp only at hS hi
    subst hS; subst hi
    exact hmem
  · intro hmem
    exact ⟨(S, i), ⟨hmem, rfl⟩, rfl⟩

theorem site_for_compute_policy {problem : Problem} {c : ComputeArgs}
    {S : SiteId} (h : site_for_compute problem c = some S) :
    (S, c.compute_asset) ∈ problem.may_compute ∧
      ∀ a ∈ c.needed_assets, (S, a) ∈ problem.may_access := by
  have hmem : S ∈ (problem.may_compute.filterMap
      (asset_filter_mapper c.compute_asset)).filter
        (fun site_id => c.needed_assets.all
          (fun needed_asset => decide ((site_id, needed_asset) ∈ problem.may_access))) := by
    cases hl : (problem.may_compute.filterMap
        (asset_filter_mapper c.compute_asset)).filter
          (fun site_id => c.needed_assets.all
            (fun needed_asset => decide ((site_id, needed_asset) ∈ problem.may_access))) with
    | nil =>
      rw [site_for_compute, hl] at h
      exact absurd h (by simp)
    | cons hd tl =>
      rw [site_for_compute, hl] at h
      simp only [List.head?_cons] at h
      injection h with h'
      subst h'
      exact List.mem_cons_self _ _
  obtain ⟨hfm, hpred⟩ := List.mem_filter.mp hmem
  constructor
  · obtain ⟨p, hp, hfp⟩ := List.mem_filterMap.mp hfm
    obtain ⟨ps, pa⟩ := p
    simp only [asset_filter_mapper] at hfp
    by_cases hpa : pa = c.compute_asset
    · rw [if_pos hpa] at hfp
      injection hfp with hfp'
      subst hfp'
      subst hpa
      exact hp
    · rw [if_neg hpa] at hfp
      exact absurd hfp (by simp)
  · intro a ha
    have := List.all_eq_true.mp hpred a ha
    exact of_decide_eq_true this

/-- C2: for every problem the planner accepts, each requested compute `c`
is carried by exactly one site `S` (exactly one per-site instruction list
contains `ComputeAssetData c`), and that site satisfies the policy:
`(S, c.compute_asset) ∈ may_compute` and `(S, a) ∈ may_access` for every
needed asset `a` (inputs and the compute asset). -/
theorem c2_plan_soundness (problem : Problem)
    (log : List (SiteId × Instruction)) (h : plan problem = some (.ok log)) :
    ∀ c ∈ problem.do_compute, ∃ S,
      Instruction.ComputeAssetData c ∈ planFor log S ∧
      (∀ S', Instruction.ComputeAssetData c ∈ planFor log S' → S' = S) ∧
      (S, c.compute_asset) ∈ problem.may_compute ∧
      ∀ a ∈ c.needed_assets, (S, a) ∈ problem.may_access := by
  have hmemFor := fun (S : SiteId) (i : Instruction) => mem_planFor log S i
  obtain ⟨hent, hex⟩ := planAux_compute_entries problem problem.do_compute.length
    (SymbolicStore.with_assets problem.site_has_asset) problem.do_compute log h
  intro c hc
  obtain ⟨S, hS⟩ := hex c hc
  have hsite := hent S c hS
  obtain ⟨hmc, hma⟩ := site_for_compute_policy hsite
  refine ⟨S, (hmemFor S _).mpr hS, ?_, hmc, hma⟩
  intro S' hS'
  have hsite' := hent S' c ((hmemFor S' _).mp hS')
  rw [hsite] at hsite'
  injection hsite' with h'
  exact h'.symm

/-! ### Routing dual (C3) -/

/-- Splitting an append at a distinguished occurrence: the occurrence lies
in the left part (which then starts with the whole prefix) or in the right
part (whose own prefix completes the left part to the whole prefix). -/
theorem append_split_at {α : Type} {x : α} :
    ∀ {l₁ l₂ pre post : List α}, l₁ ++ l₂ = pre ++ x :: post →
      (∃ post₁, l₁ = pre ++ x :: post₁) ∨
      (∃ pre₂, pre = l₁ ++ pre₂ ∧ l₂ = pre₂ ++ x :: post) := by
  intro l₁
  induction l₁ with
  | nil =>
    intro l₂ pre post h
    exact Or.inr ⟨pre, rfl, h⟩
  | cons y l₁' ih =>
    intro l₂ pre post h
    cases pre with
    | nil =>
      simp only [List.cons_append, List.nil_append] at h
      injection h with h1 h2
      subst h1
      exact Or.inl ⟨l₁', by rw [List.nil_append]⟩
    | cons z pre' =>
      simp only [List.cons_append] at h
      injection h with h1 h2
      subst h1
      rcases ih h2 with ⟨post₁, hp⟩ | ⟨pre₂, hp, hl⟩
      · exact Or.inl ⟨post₁, by rw [List.cons_append, hp]⟩
      · exact Or.inr ⟨pre₂, by rw [List.cons_append, hp], hl⟩

theorem nil_ne_append_cons {α : Type} {pre post : List α} {x : α} :
    ([] : List α) ≠ pre ++ x :: post := by
  cases pre <;> simp

/-- The Amy/Bob/Cho scenario problem (spec scenario S1; `scenario.rs` builds
it with sites 0, 1, 2 and assets x, y, z, f allocated by site 42). -/
def scenarioProblem : Problem :=
  { may_access := [(⟨0⟩, ⟨⟨42⟩, ⟨0⟩⟩), (⟨1⟩, ⟨⟨42⟩, ⟨0⟩⟩), (⟨1⟩, ⟨⟨42⟩, ⟨1⟩⟩),
      (⟨1⟩, ⟨⟨42⟩, ⟨3⟩⟩), (⟨2⟩, ⟨⟨42⟩, ⟨3⟩⟩), (⟨2⟩, ⟨⟨42⟩, ⟨2⟩⟩)]
    may_compute := [(⟨1⟩, ⟨⟨42⟩, ⟨3⟩⟩)]
    site_has_asset := [(⟨0⟩, ⟨⟨42⟩, ⟨0⟩⟩), (⟨1⟩, ⟨⟨42⟩, ⟨1⟩⟩), (⟨2⟩, ⟨⟨42⟩, ⟨3⟩⟩)]
    do_compute := [⟨[⟨⟨42⟩, ⟨0⟩⟩, ⟨⟨42⟩, ⟨1⟩⟩], [⟨⟨42⟩, ⟨2⟩⟩], ⟨⟨42⟩, ⟨3⟩⟩⟩] }

/-- The plan the embedded planner computes for the scenario (matching the
spec's expected plan for S1). -/
def scenarioLog : List (SiteId × Instruction) :=
  [(⟨1⟩, .ComputeAssetData ⟨[⟨⟨42⟩, ⟨0⟩⟩, ⟨⟨42⟩, ⟨1⟩⟩], [⟨⟨42⟩, ⟨2⟩⟩], ⟨⟨42⟩, ⟨3⟩⟩⟩),
    (⟨0⟩, .SendAssetTo ⟨⟨42⟩, ⟨0⟩⟩ ⟨1⟩),
    (⟨1⟩, .AcquireAssetFrom ⟨⟨42⟩, ⟨0⟩⟩ ⟨0⟩),
    (⟨2⟩, .SendAssetTo ⟨⟨42⟩, ⟨3⟩⟩ ⟨1⟩),
    (⟨1⟩, .AcquireAssetFrom ⟨⟨42⟩, ⟨3⟩⟩ ⟨2⟩)]

/-- Witness for C2 at a concrete input: in the scenario plan, the single
compute is carried exactly by site 1, which may compute `f` and may access
`x`, `y` and `f`. -/
theorem c2_plan_soundness_witness :
    ∃ S, Instruction.ComputeAssetData
        ⟨[⟨⟨42⟩, ⟨0⟩⟩, ⟨⟨42⟩, ⟨1⟩⟩], [⟨⟨42⟩, ⟨2⟩⟩], ⟨⟨42⟩, ⟨3⟩⟩⟩ ∈
        planFor scenarioLog S ∧
      (∀ S', Instruction.ComputeAssetData
          ⟨[⟨⟨42⟩, ⟨0⟩⟩, ⟨⟨42⟩, ⟨1⟩⟩], [⟨⟨42⟩, ⟨2⟩⟩], ⟨⟨42⟩, ⟨3⟩⟩⟩ ∈
          planFor scenarioLog S' → S' = S) ∧
      (S, ComputeArgs.compute_asset
        ⟨[⟨⟨42⟩, ⟨0⟩⟩, ⟨⟨42⟩, ⟨1⟩⟩], [⟨⟨42⟩, ⟨2⟩⟩], ⟨⟨42⟩, ⟨3⟩⟩⟩) ∈
        scenarioProblem.may_compute ∧
      ∀ a ∈ ComputeArgs.needed_assets
          ⟨[⟨⟨42⟩, ⟨0⟩⟩, ⟨⟨42⟩, ⟨1⟩⟩], [⟨⟨42⟩, ⟨2⟩⟩], ⟨⟨42⟩, ⟨3⟩⟩⟩,
        (S, a) ∈ scenarioProblem.may_access :=
  c2_plan_soundness scenarioProblem scenarioLog rfl
    ⟨[⟨⟨42⟩, ⟨0⟩⟩, ⟨⟨42⟩, ⟨1⟩⟩], [⟨⟨42⟩, ⟨2⟩⟩], ⟨⟨42⟩, ⟨3⟩⟩⟩ (by decide)

/-! ### Routing under arbitrary `HashSet` iteration order (C3)

The two selections the planner makes by calling `.next()` on a filtered
`HashSet` iterator — the compute site and the routing source — depend on the
set's unspecified iteration order.  Below the planner is re-embedded with
both selections as explicit choice streams whose every entry is validated
against the same predicate the Rust iterator chain applies, so the valid
runs of `planChoice` are exactly the runs `plan` in `src/planning.rs` can
exhibit across iteration orders (`plan_refines_planChoice` shows the
insertion-order determinization is one of them). -/

/-- Eligibility of a site for a compute, exactly the two filters of
`site_for_compute`: the site may execute the compute asset and may access
every needed asset. -/
def siteEligible (problem : Problem) (compute_args : ComputeArgs)
    (site_id : SiteId) : Bool :=
  decide ((site_id, compute_args.compute_asset) ∈ problem.may_compute) &&
    compute_args.needed_assets.all
      (fun needed_asset => decide ((site_id, needed_asset) ∈ problem.may_access))

/-- The routing inner loop of `plan` with the source-site selection kept
nondeterministic: `holder_choices` supplies, per emitted acquire, the
element the `filter_map(asset_filter_mapper(..)).next()` call yielded, and
the definition checks the supplied site indeed holds the asset (the only
guarantee the iterator gives).  Returns the unconsumed suffix of the
stream; an exhausted stream or an invalid choice is `none` (not a program
behaviour). -/
def routeNeededChoice (compute_site : SiteId) :
    SymbolicStore → List AssetId → List SiteId →
    Option (SymbolicStore × List (SiteId × Instruction) × List SiteId)
  | store, [], holder_choices => some (store, [], holder_choices)
  | store, needed_asset :: rest, holder_choices =>
    if (compute_site, needed_asset) ∈ store.site_has_asset then
      routeNeededChoice compute_site store rest holder_choices
    else
      match holder_choices with
      | [] => none
      | having_site :: holder_choices' =>
        if (having_site, needed_asset) ∈ store.site_has_asset then
          match routeNeededChoice compute_site
              (store.insert compute_site needed_asset) rest holder_choices' with
          | none => none
          | some (store', log, holder_choices'') =>
            some (store',
              (having_site, .SendAssetTo needed_asset compute_site) ::
                (compute_site, .AcquireAssetFrom needed_asset having_site) :: log,
              holder_choices'')
        else none

/-- The main planner loop with the compute-site selection also a validated
choice stream.  `NoSiteForCompute` is raised exactly when no site is
eligible (`site_for_compute … = none`; emptiness of the filtered iterator
does not depend on its order); otherwise the chosen site must pass the same
eligibility filters the iterator applies. -/
def planAuxChoice (problem : Problem) :
    Nat → SymbolicStore → List ComputeArgs → List SiteId → List SiteId →
    Option (Except PlanError (List (SiteId × Instruction)))
  | 0, store, computes_todo, _, _ =>
    match take_feasible_compute store.someone_has_asset computes_todo with
    | none =>
      match computes_todo.head? with
      | none => some (.ok [])
      | some remaining_compute => some (.error (.CyclicCausality remaining_compute))
    | some _ => none
  | fuel + 1, store, computes_todo, site_choices, holder_choices =>
    match take_feasible_compute store.someone_has_asset computes_todo with
    | none =>
      match computes_todo.head? with
      | none => some (.ok [])
      | some remaining_compute => some (.error (.CyclicCausality remaining_compute))
    | some (next_compute, rest) =>
      match site_for_compute problem next_compute with
      | none => some (.error (.NoSiteForCompute next_compute))
      | some _ =>
        match site_choices with
        | [] => none
        | compute_site :: site_choices' =>
          if siteEligible problem next_compute compute_site then
            match routeNeededChoice compute_site store
                next_compute.needed_assets holder_choices with
            | none => none
            | some (store', routeLog, holder_choices') =>
              let store'' := next_compute.outputs.foldl
                (fun st out => st.insert compute_site out) store'
              (planAuxChoice problem fuel store'' rest
                  site_choices' holder_choices').map
                (fun exc => exc.map (fun log =>
                  (compute_site, .ComputeAssetData next_compute) :: (routeLog ++ log)))
          else none

/-- `plan` under an arbitrary iteration order given by the two choice
streams. -/
def planChoice (problem : Problem)
    (site_choices holder_choices : List SiteId) :
    Option (Except PlanError (List (SiteId × Instruction))) :=
  planAuxChoice problem problem.do_compute.length
    (SymbolicStore.with_assets problem.site_has_asset) problem.do_compute
    site_choices holder_choices

/-- A legitimate source for routing asset `a` from site `s`, relative to the
instructions `ctx` already emitted: `s` holds `a` initially, or a compute
already planned at `s` outputs `a`, or `s` was itself already instructed to
acquire `a` (a routing recipient passing the asset on). -/
def EntrySource (problem : Problem) (ctx : List (SiteId × Instruction))
    (s : SiteId) (a : AssetId) : Prop :=
  (s, a) ∈ problem.site_has_asset ∨
    (∃ c', (s, Instruction.ComputeAssetData c') ∈ ctx ∧ a ∈ c'.outputs) ∨
    (∃ from_site, (s, Instruction.AcquireAssetFrom a from_site) ∈ ctx)

theorem EntrySource_mono {problem : Problem}
    {ctx ctx' : List (SiteId × Instruction)} {s : SiteId} {a : AssetId}
    (hsub : ∀ e ∈ ctx, e ∈ ctx') (h : EntrySource problem ctx s a) :
    EntrySource problem ctx' s a := by
  rcases h with h | ⟨c', hc', ho⟩ | ⟨from_site, hf⟩
  · exact Or.inl h
  · exact Or.inr (Or.inl ⟨c', hsub _ hc', ho⟩)
  · exact Or.inr (Or.inr ⟨from_site, hsub _ hf⟩)

/-- Every symbolic holder entry (not only the first per asset) is a
legitimate source. -/
def StoreEntriesInv (problem : Problem) (store : SymbolicStore)
    (ctx : List (SiteId × Instruction)) : Prop :=
  ∀ s a, (s, a) ∈ store.site_has_asset → EntrySource problem ctx s a

theorem StoreEntriesInv_mono {problem : Problem} {store : SymbolicStore}
    {ctx ctx' : List (SiteId × Instruction)} (hsub : ∀ e ∈ ctx, e ∈ ctx')
    (h : StoreEntriesInv problem store ctx) : StoreEntriesInv problem store ctx' :=
  fun s a hmem => EntrySource_mono hsub (h s a hmem)

/-- Marking compute outputs at the compute site preserves the entry
invariant, provided the compute's own instruction is in the context. -/
theorem StoreEntriesInv_outputs {problem : Problem} {cs : SiteId}
    {ctx : List (SiteId × Instruction)} {c₀ : ComputeArgs}
    (hctx : (cs, Instruction.ComputeAssetData c₀) ∈ ctx)
    {store : SymbolicStore} (hinv : StoreEntriesInv problem store ctx) :
    StoreEntriesInv problem
      (c₀.outputs.foldl (fun st out => st.insert cs out) store) ctx := by
  intro s x hx
  rw [(foldl_insert_fields cs c₀.outputs store).2] at hx
  rcases List.mem_append.mp hx with hx | hx
  · exact hinv s x hx
  · obtain ⟨o, ho, heq⟩ := List.mem_map.mp hx
    injection heq with he1 he2
    subst he1; subst he2
    exact Or.inr (Or.inl ⟨c₀, hctx, ho⟩)

/-- Routing with validated source choices preserves the entry invariant,
and every emitted acquire points at a legitimate source relative to the
instructions before it and is paired with the matching send. -/
theorem routeNeededChoice_facts {problem : Problem} {cs : SiteId} :
    ∀ {needed : List AssetId} {store store' : SymbolicStore}
      {log : List (SiteId × Instruction)} {picks picks' : List SiteId}
      {ctx : List (SiteId × Instruction)},
      StoreEntriesInv problem store ctx →
      routeNeededChoice cs store needed picks = some (store', log, picks') →
      StoreEntriesInv problem store' (ctx ++ log) ∧
        (∀ pre S aa ss post,
          log = pre ++ (S, Instruction.AcquireAssetFrom aa ss) :: post →
          S = cs ∧ EntrySource problem (ctx ++ pre) ss aa) ∧
        (∀ S aa ss, (S, Instruction.AcquireAssetFrom aa ss) ∈ log →
          S = cs ∧ (ss, Instruction.SendAssetTo aa cs) ∈ log) := by
  intro needed
  induction needed with
  | nil =>
    intro store store' log picks picks' ctx hinv h
    simp only [routeNeededChoice] at h
    injection h with h'
    simp only [Prod.mk.injEq] at h'
    obtain ⟨h1, h2, h3⟩ := h'
    subst h1; subst h2
    refine ⟨by simpa using hinv, ?_, ?_⟩
    · intro pre S aa ss post hsplit
      exact absurd hsplit nil_ne_append_cons
    · intro S aa ss hmem
      exact absurd hmem (by simp)
  | cons a rest ih =>
    intro store store' log picks picks' ctx hinv h
    simp only [routeNeededChoice] at h
    by_cases hc : (cs, a) ∈ store.site_has_asset
    · rw [if_pos hc] at h
      exact ih hinv h
    · rw [if_neg hc] at h
      cases picks with
      | nil => exact absurd h (by simp)
      | cons having picks₁ =>
        simp only [] at h
        by_cases hhm : (having, a) ∈ store.site_has_asset
        · rw [if_pos hhm] at h
          cases hroute : routeNeededChoice cs (store.insert cs a) rest picks₁ with
          | none => rw [hroute] at h; exact absurd h (by simp)
          | some pr =>
            obtain ⟨store₁, log₁, picks₂⟩ := pr
            rw [hroute] at h
            injection h with h'
            simp only [Prod.mk.injEq] at h'
            obtain ⟨h1, h2, h3⟩ := h'
            subst h1; subst h2
            have hsrc : EntrySource problem ctx having a := hinv having a hhm
            have hmono : ∀ e ∈ ctx, e ∈ ctx ++
                [(having, Instruction.SendAssetTo a cs),
                  (cs, Instruction.AcquireAssetFrom a having)] :=
              fun e he => List.mem_append_left _ he
            have hinv₂ : StoreEntriesInv problem (store.insert cs a)
                (ctx ++ [(having, Instruction.SendAssetTo a cs),
                  (cs, Instruction.AcquireAssetFrom a having)]) := by
              intro s x hx
              simp only [SymbolicStore.insert, List.mem_append,
                List.mem_singleton] at hx
              rcases hx with hx | hx
              · exact EntrySource_mono hmono (hinv s x hx)
              · injection hx with hx1 hx2
                subst hx1; subst hx2
                refine Or.inr (Or.inr ⟨having, List.mem_append_right _ ?_⟩)
                exact List.mem_cons_of_mem _ (List.mem_cons_self _ _)
            obtain ⟨ihinv, ihsplit, ihmem⟩ := ih hinv₂ hroute
            have heq : (ctx ++ [(having, Instruction.SendAssetTo a cs),
                (cs, Instruction.AcquireAssetFrom a having)]) ++ log₁ =
                ctx ++ ((having, Instruction.SendAssetTo a cs) ::
                  (cs, Instruction.AcquireAssetFrom a having) :: log₁) := by
              simp [List.append_assoc]
            refine ⟨by rw [heq] at ihinv; exact ihinv, ?_, ?_⟩
            · intro pre S aa ss post hsplit
              cases pre with
              | nil =>
                simp only [List.nil_append] at hsplit
                injection hsplit with hh1 hh2
                injection hh1 with hh1a hh1b
                cases hh1b
              | cons y pre₁ =>
                simp only [List.cons_append] at hsplit
                injection hsplit with hh1 hh2
                subst hh1
                cases pre₁ with
                | nil =>
                  simp only [List.nil_append] at hh2
                  injection hh2 with hh3 hh4
                  injection hh3 with hh3a hh3b
                  subst hh3a
                  injection hh3b with hb1 hb2
                  subst hb1; subst hb2
                  refine ⟨rfl, ?_⟩
                  exact EntrySource_mono (fun e he => List.mem_append_left _ he) hsrc
                | cons z pre₂ =>
                  simp only [List.cons_append] at hh2
                  injection hh2 with hh3 hh4
                  subst hh3
                  obtain ⟨hS, hsrc'⟩ := ihsplit pre₂ S aa ss post hh4
                  refine ⟨hS, ?_⟩
                  have heq₂ : (ctx ++ [(having, Instruction.SendAssetTo a cs),
                      (cs, Instruction.AcquireAssetFrom a having)]) ++ pre₂ =
                      ctx ++ ((having, Instruction.SendAssetTo a cs) ::
                        (cs, Instruction.AcquireAssetFrom a having) :: pre₂) := by
                    simp [List.append_assoc]
                  rw [heq₂] at hsrc'
                  exact hsrc'
            · intro S aa ss hmem
              rcases List.mem_cons.mp hmem with hmem | hmem
              · injection hmem with hm1 hm2
                cases hm2
              · rcases List.mem_cons.mp hmem with hmem | hmem
                · injection hmem with hm1 hm2
                  subst hm1
                  injection hm2 with hm2a hm2b
                  subst hm2a; subst hm2b
                  exact ⟨rfl, List.mem_cons_self _ _⟩
                · obtain ⟨hS, hsend⟩ := ihmem S aa ss hmem
                  exact ⟨hS, List.mem_cons_of_mem _ (List.mem_cons_of_mem _ hsend)⟩
        · rw [if_neg hhm] at h
          exact absurd h (by simp)

theorem planAuxChoice_acquires (problem : Problem) :
    ∀ (fuel : Nat) (store : SymbolicStore) (todo : List ComputeArgs)
      (site_choices holder_choices : List SiteId)
      (ctx log : List (SiteId × Instruction)),
      StoreEntriesInv problem store ctx →
      planAuxChoice problem fuel store todo site_choices holder_choices =
        some (.ok log) →
      (∀ pre S aa ss post,
        log = pre ++ (S, Instruction.AcquireAssetFrom aa ss) :: post →
        EntrySource problem (ctx ++ pre) ss aa) ∧
      (∀ S aa ss, (S, Instruction.AcquireAssetFrom aa ss) ∈ log →
        (ss, Instruction.SendAssetTo aa S) ∈ log) := by
  intro fuel
  induction fuel with
  | zero =>
    intro store todo sc hc ctx log hinv h
    cases hta : take_feasible_compute store.someone_has_asset todo with
    | none =>
      cases hh : todo.head? with
      | none =>
        simp only [planAuxChoice, hta, hh] at h
        injection h with h'
        injection h' with h''
        subst h''
        exact ⟨fun pre S aa ss post hsplit => absurd hsplit nil_ne_append_cons,
          fun S aa ss hmem => absurd hmem (by simp)⟩
      | some r =>
        simp only [planAuxChoice, hta, hh] at h
        exact absurd h (by simp)
    | some pr =>
      simp only [planAuxChoice, hta] at h
      exact absurd h (by simp)
  | succ f ih =>
    intro store todo sc hc ctx log hinv h
    cases hta : take_feasible_compute store.someone_has_asset todo with
    | none =>
      cases hh : todo.head? with
      | none =>
        simp only [planAuxChoice, hta, hh] at h
        injection h with h'
        injection h' with h''
        subst h''
        exact ⟨fun pre S aa ss post hsplit => absurd hsplit nil_ne_append_cons,
          fun S aa ss hmem => absurd hmem (by simp)⟩
      | some r =>
        simp only [planAuxChoice, hta, hh] at h
        exact absurd h (by simp)
    | some pr =>
      obtain ⟨c₀, rest⟩ := pr
      cases hsfc : site_for_compute problem c₀ with
      | none =>
        simp only [planAuxChoice, hta, hsfc] at h
        exact absurd h (by simp)
      | some s₀ =>
        cases sc with
        | nil =>
          simp only [planAuxChoice, hta, hsfc] at h
          exact absurd h (by simp)
        | cons cs sc' =>
          simp only [planAuxChoice, hta, hsfc] at h
          by_cases helig : siteEligible problem c₀ cs = true
          case neg =>
            rw [if_neg helig] at h
            exact absurd h (by simp)
          case pos =>
            rw [if_pos helig] at h
            cases hroute : routeNeededChoice cs store c₀.needed_assets hc with
            | none => rw [hroute] at h; exact absurd h (by simp)
            | some pr₂ =>
              obtain ⟨store', rlog, hc'⟩ := pr₂
              rw [hroute] at h
              simp only [] at h
              cases hrec : planAuxChoice problem f
                  (c₀.outputs.foldl (fun st out => st.insert cs out) store')
                  rest sc' hc' with
              | none => rw [hrec] at h; exact absurd h (by simp)
              | some exc =>
                rw [hrec] at h
                simp only [Option.map_some'] at h
                match exc, h with
                | .ok l, h =>
                  have hlog : log =
                      (cs, Instruction.ComputeAssetData c₀) :: (rlog ++ l) := by
                    injection h with h'
                    injection h' with h''
                    exact h''.symm
                  subst hlog
                  have hinvC : StoreEntriesInv problem store
                      (ctx ++ [(cs, Instruction.ComputeAssetData c₀)]) :=
                    StoreEntriesInv_mono (fun e he => List.mem_append_left _ he) hinv
                  obtain ⟨hinvR, hRsplit, hRmem⟩ :=
                    routeNeededChoice_facts hinvC hroute
                  have hctxmem : (cs, Instruction.ComputeAssetData c₀) ∈
                      (ctx ++ [(cs, Instruction.ComputeAssetData c₀)]) ++ rlog :=
                    List.mem_append_left _
                      (List.mem_append_right _ (List.mem_cons_self _ _))
                  have hinv'' := StoreEntriesInv_outputs hctxmem hinvR
                  obtain ⟨ihsplit, ihsend⟩ := ih _ rest sc' hc'
                    ((ctx ++ [(cs, Instruction.ComputeAssetData c₀)]) ++ rlog) l
                    hinv'' hrec
                  constructor
                  · intro pre S aa ss post hsplit
                    cases pre with
                    | nil =>
                      simp only [List.nil_append] at hsplit
                      injection hsplit with h1 h2
                      injection h1 with h1a h1b
                      cases h1b
                    | cons y pre₁ =>
                      simp only [List.cons_append] at hsplit
                      injection hsplit with h1 h2
                      subst h1
                      rcases append_split_at h2 with ⟨post₁, hr⟩ | ⟨pre₂, hp, hl⟩
                      · obtain ⟨hS, hsrc⟩ := hRsplit pre₁ S aa ss post₁ hr
                        have heq : (ctx ++ [(cs, Instruction.ComputeAssetData c₀)]) ++ pre₁ =
                            ctx ++ ((cs, Instruction.ComputeAssetData c₀) :: pre₁) := by
                          simp [List.append_assoc]
                        rw [heq] at hsrc
                        exact hsrc
                      · have hres := ihsplit pre₂ S aa ss post hl
                        have heq : ((ctx ++ [(cs, Instruction.ComputeAssetData c₀)]) ++ rlog) ++ pre₂ =
                            ctx ++ ((cs, Instruction.ComputeAssetData c₀) :: pre₁) := by
                          rw [hp]
                          simp [List.append_assoc]
                        rw [heq] at hres
                        exact hres
                  · intro S aa ss hmem
                    rcases List.mem_cons.mp hmem with hmem | hmem
                    · injection hmem with h1 h2
                      cases h2
                    · rcases List.mem_append.mp hmem with hmem | hmem
                      · obtain ⟨hS, hsend⟩ := hRmem S aa ss hmem
                        subst hS
                        exact List.mem_cons_of_mem _ (List.mem_append_left _ hsend)
                      · exact List.mem_cons_of_mem _
                          (List.mem_append_right _ (ihsend S aa ss hmem))

theorem site_for_compute_eligible {problem : Problem} {c : ComputeArgs}
    {S : SiteId} (h : site_for_compute problem c = some S) :
    siteEligible problem c S = true := by
  obtain ⟨h1, h2⟩ := site_for_compute_policy h
  simp only [siteEligible, Bool.and_eq_true, decide_eq_true_eq, List.all_eq_true]
  exact ⟨h1, fun a ha => h2 a ha⟩

theorem routeNeeded_none_choice {cs : SiteId} :
    ∀ {needed : List AssetId} {store : SymbolicStore},
      routeNeeded cs store needed = none →
      routeNeededChoice cs store needed [] = none := by
  intro needed
  induction needed with
  | nil => intro store h; exact absurd h (by simp [routeNeeded])
  | cons a rest ih =>
    intro store h
    simp only [routeNeeded] at h
    by_cases hc : (cs, a) ∈ store.site_has_asset
    · rw [if_pos hc] at h
      simp only [routeNeededChoice, if_pos hc]
      exact ih h
    · simp only [routeNeededChoice, if_neg hc]

theorem routeNeeded_refines {cs : SiteId} :
    ∀ {needed : List AssetId} {store store' : SymbolicStore}
      {log : List (SiteId × Instruction)},
      routeNeeded cs store needed = some (store', log) →
      ∀ tail, ∃ picks, routeNeededChoice cs store needed (picks ++ tail) =
        some (store', log, tail) := by
  intro needed
  induction needed with
  | nil =>
    intro store store' log h tail
    simp only [routeNeeded] at h
    injection h with h'
    simp only [Prod.mk.injEq] at h'
    obtain ⟨h1, h2⟩ := h'
    subst h1; subst h2
    exact ⟨[], rfl⟩
  | cons a rest ih =>
    intro store store' log h tail
    simp only [routeNeeded] at h
    by_cases hc : (cs, a) ∈ store.site_has_asset
    · rw [if_pos hc] at h
      obtain ⟨picks, hp⟩ := ih h tail
      refine ⟨picks, ?_⟩
      simp only [routeNeededChoice, if_pos hc]
      exact hp
    · rw [if_neg hc] at h
      cases hfh : firstHolder store.site_has_asset a with
      | none => rw [hfh] at h; exact absurd h (by simp)
      | some having =>
        rw [hfh] at h
        cases hroute : routeNeeded cs (store.insert cs a) rest with
        | none => rw [hroute] at h; exact absurd h (by simp)
        | some pr =>
          obtain ⟨store₁, log₁⟩ := pr
          rw [hroute] at h
          injection h with h'
          simp only [Prod.mk.injEq] at h'
          obtain ⟨h1, h2⟩ := h'
          subst h1; subst h2
          obtain ⟨picks₁, hp₁⟩ := ih hroute tail
          refine ⟨having :: picks₁, ?_⟩
          simp only [routeNeededChoice, if_neg hc, List.cons_append,
            if_pos (firstHolder_some_mem hfh), hp₁]

theorem planAux_refines (problem : Problem) :
    ∀ (fuel : Nat) (store : SymbolicStore) (todo : List ComputeArgs),
      ∃ site_choices holder_choices,
        planAuxChoice problem fuel store todo site_choices holder_choices =
          planAux problem fuel store todo := by
  intro fuel
  induction fuel with
  | zero => intro store todo; exact ⟨[], [], rfl⟩
  | succ f ih =>
    intro store todo
    cases hta : take_feasible_compute store.someone_has_asset todo with
    | none => exact ⟨[], [], by simp only [planAuxChoice, planAux, hta]⟩
    | some pr =>
      obtain ⟨c₀, rest⟩ := pr
      cases hsfc : site_for_compute problem c₀ with
      | none => exact ⟨[], [], by simp only [planAuxChoice, planAux, hta, hsfc]⟩
      | some cs =>
        have helig := site_for_compute_eligible hsfc
        cases hroute : routeNeeded cs store c₀.needed_assets with
        | none =>
          have hcn := routeNeeded_none_choice hroute
          refine ⟨[cs], [], ?_⟩
          simp only [planAuxChoice, planAux, hta, hsfc, if_pos helig, hcn, hroute]
        | some pr₂ =>
          obtain ⟨store', rlog⟩ := pr₂
          obtain ⟨scIH, hcIH, hIH⟩ :=
            ih (c₀.outputs.foldl (fun st out => st.insert cs out) store') rest
          obtain ⟨picks, hp⟩ := routeNeeded_refines hroute hcIH
          refine ⟨cs :: scIH, picks ++ hcIH, ?_⟩
          simp only [planAuxChoice, planAux, hta, hsfc, if_pos helig, hp,
            hroute, hIH]

/-- The insertion-order determinization `plan` is one possible run of the
choice-stream planner: every result `plan` produces, `planChoice` produces
under some (validated) choice streams. -/
theorem plan_refines_planChoice (problem : Problem) :
    ∃ site_choices holder_choices,
      planChoice problem site_choices holder_choices = plan problem :=
  planAux_refines problem problem.do_compute.length
    (SymbolicStore.with_assets problem.site_has_asset) problem.do_compute

/-- A problem on which the routing source can be a mere routing recipient:
asset `(9,0)` is initially held only by site 0; compute 1 (program `(9,1)`)
runs at site 1 and compute 2 (program `(9,2)`) at site 2, both consuming
`(9,0)`. -/
def routedSourceProblem : Problem :=
  { may_access := [(⟨1⟩, ⟨⟨9⟩, ⟨0⟩⟩), (⟨1⟩, ⟨⟨9⟩, ⟨1⟩⟩),
      (⟨2⟩, ⟨⟨9⟩, ⟨0⟩⟩), (⟨2⟩, ⟨⟨9⟩, ⟨2⟩⟩)]
    may_compute := [(⟨1⟩, ⟨⟨9⟩, ⟨1⟩⟩), (⟨2⟩, ⟨⟨9⟩, ⟨2⟩⟩)]
    site_has_asset := [(⟨0⟩, ⟨⟨9⟩, ⟨0⟩⟩), (⟨1⟩, ⟨⟨9⟩, ⟨1⟩⟩), (⟨2⟩, ⟨⟨9⟩, ⟨2⟩⟩)]
    do_compute := [⟨[⟨⟨9⟩, ⟨0⟩⟩], [⟨⟨9⟩, ⟨3⟩⟩], ⟨⟨9⟩, ⟨1⟩⟩⟩,
      ⟨[⟨⟨9⟩, ⟨0⟩⟩], [⟨⟨9⟩, ⟨4⟩⟩], ⟨⟨9⟩, ⟨2⟩⟩⟩] }

/-- The plan prefix emitted before the offending acquire in the run below:
compute 1 at site 1 with its routing from site 0, then compute 2 at site 2
and the send from site 1. -/
def routedSourcePre : List (SiteId × Instruction) :=
  [(⟨1⟩, .ComputeAssetData ⟨[⟨⟨9⟩, ⟨0⟩⟩], [⟨⟨9⟩, ⟨3⟩⟩], ⟨⟨9⟩, ⟨1⟩⟩⟩),
    (⟨0⟩, .SendAssetTo ⟨⟨9⟩, ⟨0⟩⟩ ⟨1⟩),
    (⟨1⟩, .AcquireAssetFrom ⟨⟨9⟩, ⟨0⟩⟩ ⟨0⟩),
    (⟨2⟩, .ComputeAssetData ⟨[⟨⟨9⟩, ⟨0⟩⟩], [⟨⟨9⟩, ⟨4⟩⟩], ⟨⟨9⟩, ⟨2⟩⟩⟩),
    (⟨1⟩, .SendAssetTo ⟨⟨9⟩, ⟨0⟩⟩ ⟨2⟩)]

/-- Counterexample for C3 as stated.  Under the `HashSet` iteration order
that makes the routing of compute 2 pick site 1 as source (site 1 is then a
genuine element of the holder iterator: the routing of compute 1 marked
`(site 1, (9,0))` in the symbolic store), the planner succeeds and emits
`AcquireAssetFrom((9,0), site 1)` at site 2 — yet site 1 neither holds
`(9,0)` in the initial `site_has_asset` nor hosts any compute of the plan
whose outputs include `(9,0)`, refuting the claim's disjunction.  The
choice streams pass `planChoice`'s validity checks, so this run is one the
program can exhibit. -/
theorem c3_routing_dual_counterexample :
    planChoice routedSourceProblem [⟨1⟩, ⟨2⟩] [⟨0⟩, ⟨1⟩] =
      some (.ok (routedSourcePre ++
        (⟨2⟩, Instruction.AcquireAssetFrom ⟨⟨9⟩, ⟨0⟩⟩ ⟨1⟩) :: [])) ∧
    ((⟨1⟩, (⟨⟨9⟩, ⟨0⟩⟩ : AssetId)) ∉ routedSourceProblem.site_has_asset) ∧
    (∀ c', ((⟨1⟩ : SiteId), Instruction.ComputeAssetData c') ∈ routedSourcePre →
      (⟨⟨9⟩, ⟨0⟩⟩ : AssetId) ∉ c'.outputs) := by
  refine ⟨rfl, by decide, ?_⟩
  intro c' hc'
  simp only [routedSourcePre, List.mem_cons, List.not_mem_nil, or_false,
    Prod.mk.injEq, SiteId.mk.injEq] at hc'
  rcases hc' with ⟨_, h⟩ | ⟨h, _⟩ | ⟨_, h⟩ | ⟨h, _⟩ | ⟨_, h⟩
  · injection h with h'
    subst h'
    decide
  · exact absurd h (by decide)
  · cases h
  · exact absurd h (by decide)
  · cases h

/-- C3 (amended): for every successful plan under any `HashSet` iteration
order (the choice-stream planner `planChoice`, of which the determinized
`plan` is an instance by `plan_refines_planChoice`), every
`AcquireAssetFrom(a, s)` emitted at a site `S` names a source `s` that
holds `a` in the initial `site_has_asset`, or hosts a compute planned
earlier in the plan whose outputs include `a`, or was itself earlier in the
plan instructed to acquire `a` (a routing recipient passing the asset on);
and in every case site `s`'s instruction list contains the matching
`SendAssetTo(a, S)`. -/
theorem c3_routing_dual_sources (problem : Problem)
    (site_choices holder_choices : List SiteId)
    (log : List (SiteId × Instruction))
    (h : planChoice problem site_choices holder_choices = some (.ok log)) :
    ∀ pre S aa ss post,
      log = pre ++ (S, Instruction.AcquireAssetFrom aa ss) :: post →
      ((ss, aa) ∈ problem.site_has_asset ∨
        (∃ c', (ss, Instruction.ComputeAssetData c') ∈ pre ∧ aa ∈ c'.outputs) ∨
        (∃ from_site, (ss, Instruction.AcquireAssetFrom aa from_site) ∈ pre)) ∧
      Instruction.SendAssetTo aa S ∈ planFor log ss := by
  have hinv0 : StoreEntriesInv problem
      (SymbolicStore.with_assets problem.site_has_asset) [] :=
    fun s a hmem => Or.inl hmem
  obtain ⟨hsplit, hsend⟩ := planAuxChoice_acquires problem
    problem.do_compute.length
    (SymbolicStore.with_assets problem.site_has_asset) problem.do_compute
    site_choices holder_choices [] log hinv0 h
  intro pre S aa ss post hlog
  constructor
  · have := hsplit pre S aa ss post hlog
    simpa only [List.nil_append, EntrySource] using this
  · have hmem : (S, Instruction.AcquireAssetFrom aa ss) ∈ log := by
      rw [hlog]
      exact List.mem_append_right _ (List.mem_cons_self _ _)
    exact (mem_planFor log ss _).mpr (hsend S aa ss hmem)

/-- Witness for C3 (amended) at a concrete input: in the scenario plan run
under the canonical choices, the acquire of `x` at site 1 from site 0 —
site 0 holds `x` initially and carries the matching send. -/
theorem c3_routing_dual_sources_witness :
    (((⟨0⟩ : SiteId), (⟨⟨42⟩, ⟨0⟩⟩ : AssetId)) ∈ scenarioProblem.site_has_asset ∨
      (∃ c', ((⟨0⟩ : SiteId), Instruction.ComputeAssetData c') ∈
          [((⟨1⟩ : SiteId), Instruction.ComputeAssetData
            ⟨[⟨⟨42⟩, ⟨0⟩⟩, ⟨⟨42⟩, ⟨1⟩⟩], [⟨⟨42⟩, ⟨2⟩⟩], ⟨⟨42⟩, ⟨3⟩⟩⟩),
            ((⟨0⟩ : SiteId), Instruction.SendAssetTo ⟨⟨42⟩, ⟨0⟩⟩ ⟨1⟩)] ∧
        (⟨⟨42⟩, ⟨0⟩⟩ : AssetId) ∈ c'.outputs) ∨
      (∃ from_site, ((⟨0⟩ : SiteId),
          Instruction.AcquireAssetFrom ⟨⟨42⟩, ⟨0⟩⟩ from_site) ∈
          [((⟨1⟩ : SiteId), Instruction.ComputeAssetData
            ⟨[⟨⟨42⟩, ⟨0⟩⟩, ⟨⟨42⟩, ⟨1⟩⟩], [⟨⟨42⟩, ⟨2⟩⟩], ⟨⟨42⟩, ⟨3⟩⟩⟩),
            ((⟨0⟩ : SiteId), Instruction.SendAssetTo ⟨⟨42⟩, ⟨0⟩⟩ ⟨1⟩)])) ∧
    Instruction.SendAssetTo ⟨⟨42⟩, ⟨0⟩⟩ ⟨1⟩ ∈ planFor scenarioLog ⟨0⟩ :=
  c3_routing_dual_sources scenarioProblem [⟨1⟩] [⟨0⟩, ⟨2⟩] scenarioLog rfl
    [(⟨1⟩, .ComputeAssetData ⟨[⟨⟨42⟩, ⟨0⟩⟩, ⟨⟨42⟩, ⟨1⟩⟩], [⟨⟨42⟩, ⟨2⟩⟩], ⟨⟨42⟩, ⟨3⟩⟩⟩),
      (⟨0⟩, .SendAssetTo ⟨⟨42⟩, ⟨0⟩⟩ ⟨1⟩)]
    ⟨1⟩ ⟨⟨42⟩, ⟨0⟩⟩ ⟨0⟩
    [(⟨2⟩, .SendAssetTo ⟨⟨42⟩, ⟨3⟩⟩ ⟨1⟩),
      (⟨1⟩, .AcquireAssetFrom ⟨⟨42⟩, ⟨3⟩⟩ ⟨2⟩)]
    rfl

end SiteExec
